import Mathlib

/-!
Shallow embedding of the directed-graph container from `Digraph.hpp`
(class template `Digraph<VertexInfo, EdgeInfo>`), together with proofs of
the specification's claims about it.

Modelling conventions:
* `int` vertex identifiers become `Int`; the counters `vertexC`/`edgeC`
  become `Int` (overflow is irrelevant: they track container sizes).
* `std::map<int, DigraphVertex>` becomes an association list
  `List (Int × DigraphVertex ...)`.  The source never iterates the map in
  key order (all iteration goes through the cached vector `v`), so the
  ordered-map aspect of `std::map` is unobservable and a first-match
  association list is a faithful model of `find` / `at` / `operator[]`.
* `double` edge weights become an arbitrary linearly ordered additive
  commutative monoid `W` (instantiated with `ℚ` or `ℤ` in the theorems);
  the `std::numeric_limits<double>::max()` sentinel in the
  tentative-distance vector becomes `⊤ : WithTop W`.
* A thrown exception, and separately reached undefined behavior, are made
  explicit: mutators return the state at the point of the throw together
  with an `Option CxxAbort`; queries return `Except CxxAbort`.
-/

namespace DigraphModel

/-- The ways a call can abort: each `DigraphException` throw site in the
source, `std::map::at`'s `std::out_of_range`, and undefined behavior
(an out-of-bounds vector access / erase at an invalid position).
`outOfFuel` is a modelling artifact of the fuelled Dijkstra loop and is
proved unreachable at the fuel used. -/
inductive CxxAbort where
  | vertexNotExist
  | vertexExist
  | edgeExist
  | noSuchEdge
  | mapAtOutOfRange
  | undefinedBehavior
  | outOfFuel
deriving DecidableEq

/-- `DigraphEdge` from the source: from/to vertex numbers plus the edge payload. -/
structure DigraphEdge (EdgeInfo : Type) where
  fromVertex : Int
  toVertex : Int
  einfo : EdgeInfo
deriving DecidableEq

/-- `DigraphVertex` from the source: the vertex payload and the list of outgoing edges. -/
structure DigraphVertex (VertexInfo EdgeInfo : Type) where
  vinfo : VertexInfo
  edges : List (DigraphEdge EdgeInfo)
deriving DecidableEq

/-- The private state of `Digraph`: the vertex map `m`, the cached vertex
vector `v`, the cached edge-pair vector `e`, and the two counters. -/
structure Digraph (VertexInfo EdgeInfo : Type) where
  m : List (Int × DigraphVertex VertexInfo EdgeInfo)
  v : List Int
  e : List (Int × Int)
  vertexC : Int
  edgeC : Int
deriving DecidableEq

/-- Association-list lookup, modelling `std::map::find` / `::at`. -/
def mapFind {α : Type} : List (Int × α) → Int → Option α
  | [], _ => none
  | p :: rest, k => if p.1 = k then some p.2 else mapFind rest k

/-- Association-list insert-or-assign, modelling `std::map::operator[]` assignment. -/
def mapAssign {α : Type} : List (Int × α) → Int → α → List (Int × α)
  | [], k, val => [(k, val)]
  | p :: rest, k, val => if p.1 = k then (k, val) :: rest else p :: mapAssign rest k val

variable {VertexInfo EdgeInfo : Type}

/-- The default constructor: no vertices, no edges, zero counts. -/
def emptyDigraph : Digraph VertexInfo EdgeInfo := ⟨[], [], [], 0, 0⟩

/-- `vertexCount()`. -/
def vertexCount (g : Digraph VertexInfo EdgeInfo) : Int := g.vertexC

/-- `edgeCount()`. -/
def edgeCount (g : Digraph VertexInfo EdgeInfo) : Int := g.edgeC

/-- `VertexExist`: scans the vector `v` for the identifier and throws
`DigraphException` when it is not there.  The scan computes membership. -/
def VertexExist (g : Digraph VertexInfo EdgeInfo) (vertex : Int) : Option CxxAbort :=
  if vertex ∈ g.v then none else some .vertexNotExist

/-- `findVertex`: `m.find(vertex)`, throwing `DigraphException` when absent. -/
def findVertex (g : Digraph VertexInfo EdgeInfo) (vertex : Int) :
    Except CxxAbort (DigraphVertex VertexInfo EdgeInfo) :=
  match mapFind g.m vertex with
  | none => .error .vertexNotExist
  | some r => .ok r

/-- `findVertexNotExist`: throws `DigraphException` when the vertex is present in `m`. -/
def findVertexNotExist (g : Digraph VertexInfo EdgeInfo) (vertex : Int) : Option CxxAbort :=
  match mapFind g.m vertex with
  | some _ => some .vertexExist
  | none => none

/-- `edgeInfo(fromVertex, toVertex)`: check both endpoints against `v`, then
scan `m.at(fromVertex).edges` and return the payload of the first edge whose
`toVertex` matches; throw `No such edge exist` otherwise. -/
def edgeInfo (g : Digraph VertexInfo EdgeInfo) (fromVertex toVertex : Int) :
    Except CxxAbort EdgeInfo :=
  match VertexExist g fromVertex with
  | some err => .error err
  | none =>
  match VertexExist g toVertex with
  | some err => .error err
  | none =>
  match mapFind g.m fromVertex with
  | none => .error .mapAtOutOfRange
  | some r =>
  match r.edges.find? (fun it => it.toVertex == toVertex) with
  | some it => .ok it.einfo
  | none => .error .noSuchEdge

/-- `addVertex(vertex, vinfo)`: throw if the vertex is already in `m`;
otherwise bump `vertexC`, push onto `v`, and assign `m[vertex]`. -/
def addVertex (g : Digraph VertexInfo EdgeInfo) (vertex : Int) (vinfo : VertexInfo) :
    Digraph VertexInfo EdgeInfo × Option CxxAbort :=
  match findVertexNotExist g vertex with
  | some err => (g, some err)
  | none =>
    ({ g with vertexC := g.vertexC + 1,
              v := g.v ++ [vertex],
              m := mapAssign g.m vertex ⟨vinfo, []⟩ }, none)

/-- `addEdge(fromVertex, toVertex, einfo)`: look up both endpoints in `m`
(throwing when absent), scan the source's outgoing list for a duplicate
`toVertex` (throwing `Edge exist`), then bump `edgeC`, push the pair onto
`e`, and append the new edge to the source's outgoing list. -/
def addEdge (g : Digraph VertexInfo EdgeInfo) (fromVertex toVertex : Int) (einfo : EdgeInfo) :
    Digraph VertexInfo EdgeInfo × Option CxxAbort :=
  match findVertex g fromVertex with
  | .error err => (g, some err)
  | .ok i =>
  match findVertex g toVertex with
  | .error err => (g, some err)
  | .ok _ =>
  if i.edges.any (fun it => it.toVertex == toVertex) then (g, some .edgeExist)
  else
    ({ g with edgeC := g.edgeC + 1,
              e := g.e ++ [(fromVertex, toVertex)],
              m := mapAssign g.m fromVertex
                     ⟨i.vinfo, i.edges ++ [⟨fromVertex, toVertex, einfo⟩]⟩ }, none)

/-- `removeEdge(fromVertex, toVertex)`: call `edgeInfo` first (its throws
propagate with the graph untouched), then decrement `edgeC`, rebuild the
source's outgoing list keeping the edges whose `toVertex` differs, and erase
the first occurrence of the pair from `e`.  When the pair is absent from `e`
the source erases the `end()` iterator, which is undefined behavior. -/
def removeEdge (g : Digraph VertexInfo EdgeInfo) (fromVertex toVertex : Int) :
    Digraph VertexInfo EdgeInfo × Option CxxAbort :=
  match edgeInfo g fromVertex toVertex with
  | .error err => (g, some err)
  | .ok _ =>
  match mapFind g.m fromVertex with
  | none => (g, some .mapAtOutOfRange)
  | some r =>
  if (fromVertex, toVertex) ∈ g.e then
    ({ g with edgeC := g.edgeC - 1,
              m := mapAssign g.m fromVertex
                     ⟨r.vinfo, r.edges.filter (fun i => ¬ i.toVertex = toVertex)⟩,
              e := g.e.erase (fromVertex, toVertex) }, none)
  else
    -- the decrement and the adjacency rebuild have already happened when
    -- `std::find` misses and `erase(end())` is undefined behavior
    ({ g with edgeC := g.edgeC - 1,
              m := mapAssign g.m fromVertex
                     ⟨r.vinfo, r.edges.filter (fun i => ¬ i.toVertex = toVertex)⟩ },
     some .undefinedBehavior)

/-- The first rebuild loop of `removeVertex`: `for n in v_ : addVertex(n, m_.at(n).vinfo)`.
A throw from `m_.at` or `addVertex` propagates, leaving the state at the throw point. -/
def rvAddVertices (m_ : List (Int × DigraphVertex VertexInfo EdgeInfo)) :
    Digraph VertexInfo EdgeInfo → List Int → Digraph VertexInfo EdgeInfo × Option CxxAbort
  | g, [] => (g, none)
  | g, n :: rest =>
    match mapFind m_ n with
    | none => (g, some .mapAtOutOfRange)
    | some r =>
      match addVertex g n r.vinfo with
      | (g1, some err) => (g1, some err)
      | (g1, none) => rvAddVertices m_ g1 rest

/-- The inner rebuild loop of `removeVertex`: for each saved edge of one
vertex, re-add it unless it is incident on the removed vertex. -/
def rvAddEdgesInner (vertex : Int) :
    Digraph VertexInfo EdgeInfo → List (DigraphEdge EdgeInfo) →
    Digraph VertexInfo EdgeInfo × Option CxxAbort
  | g, [] => (g, none)
  | g, ed :: rest =>
    if ed.fromVertex ≠ vertex ∧ ed.toVertex ≠ vertex then
      match addEdge g ed.fromVertex ed.toVertex ed.einfo with
      | (g1, some err) => (g1, some err)
      | (g1, none) => rvAddEdgesInner vertex g1 rest
    else rvAddEdgesInner vertex g rest

/-- The outer rebuild loop of `removeVertex`: `for n in v_ : for edge in m_.at(n).edges : ...`. -/
def rvAddEdgesOuter (m_ : List (Int × DigraphVertex VertexInfo EdgeInfo)) (vertex : Int) :
    Digraph VertexInfo EdgeInfo → List Int → Digraph VertexInfo EdgeInfo × Option CxxAbort
  | g, [] => (g, none)
  | g, n :: rest =>
    match mapFind m_ n with
    | none => (g, some .mapAtOutOfRange)
    | some r =>
      match rvAddEdgesInner vertex g r.edges with
      | (g1, some err) => (g1, some err)
      | (g1, none) => rvAddEdgesOuter m_ vertex g1 rest

/-- `removeVertex(vertex)`: note that the source never checks that `vertex`
exists.  It filters `vertex` out of `v` into `v_`, snapshots `m` into `m_`,
resets the whole object to empty, then re-adds every vertex of `v_` and every
saved edge not incident on `vertex`. -/
def removeVertex (g : Digraph VertexInfo EdgeInfo) (vertex : Int) :
    Digraph VertexInfo EdgeInfo × Option CxxAbort :=
  let v_ := g.v.filter (fun ve => ¬ ve = vertex)
  let m_ := g.m
  let g0 : Digraph VertexInfo EdgeInfo := { m := [], v := [], e := [], vertexC := 0, edgeC := 0 }
  match rvAddVertices m_ g0 v_ with
  | (g1, some err) => (g1, some err)
  | (g1, none) => rvAddEdgesOuter m_ vertex g1 v_

/-- The edge loop inside `DFTr`: for each outgoing edge, if the target is
still in the working vector (its scan index is not `-1`), recurse on it via
`step`, which is instantiated with the sweep at the next fuel level. -/
def DFTrEdges (step : Int → List Int → Option (List Int)) :
    List (DigraphEdge EdgeInfo) → List Int → Option (List Int)
  | [], vertices => some vertices
  | ed :: rest, vertices =>
    if ed.toVertex ∈ vertices then
      match step ed.toVertex vertices with
      | none => none
      | some vertices1 => DFTrEdges step rest vertices1
    else DFTrEdges step rest vertices

/-- The recursive sweep `DFTr(vertex, vertices)`: erase `vertex` from the
working vector (at the index the linear scan found; erasing at index `-1`,
i.e. when `vertex` is not in the vector, is undefined behavior, modelled as
`none`), then for each outgoing edge whose target is still in the vector,
recurse on the target.  `fuel` bounds the recursion depth; each level erases
one element, so `vertices.length` fuel suffices (proved below). -/
def DFTr (g : Digraph VertexInfo EdgeInfo) : Nat → Int → List Int → Option (List Int)
  | 0, _, _ => none
  | fuel + 1, vertex, vertices =>
    if vertex ∈ vertices then
      match mapFind g.m vertex with
      | none => none
      | some r => DFTrEdges (DFTr g fuel) r.edges (vertices.erase vertex)
    else none

/-- The loop of `isStronglyConnected()`: for each vertex, sweep from it over
a fresh copy of `v`; if anything is left over, the result is `false`. -/
def isSCLoop (g : Digraph VertexInfo EdgeInfo) : List Int → Option Bool
  | [] => some true
  | vertex :: rest =>
    match DFTr g g.v.length vertex g.v with
    | none => none
    | some vertices => if vertices.length ≠ 0 then some false else isSCLoop g rest

/-- `isStronglyConnected()`. -/
def isStronglyConnected (g : Digraph VertexInfo EdgeInfo) : Option Bool :=
  isSCLoop g g.v

/-- `indexOf(vertex, vertices)` as a partial index: `none` stands for the
source's `-1` sentinel, whose later use as a vector subscript is undefined
behavior. -/
def indexOf? (vertex : Int) : List Int → Option Nat
  | [] => none
  | x :: rest => if x = vertex then some 0 else (indexOf? vertex rest).map (· + 1)

variable {W : Type} [LinearOrderedAddCommMonoid W]

/-- The local state of `findShortestPaths`: the visited flags `Kv`, the
predecessor map `Pv`, the tentative distances `Dv`, and the priority queue.
`W` abstracts the `double` weights. -/
structure DState (W : Type) where
  Kv : List Bool
  Pv : List (Int × Int)
  Dv : List (WithTop W)
  pq : List (WithTop W × Int)

/-- The initialization loop `for vertex in v : Pv[vertex] = vertex`. -/
def initPvLoop : List Int → List (Int × Int) → List (Int × Int)
  | [], acc => acc
  | x :: rest, acc => initPvLoop rest (mapAssign acc x x)

/-- Lexicographic order used by `std::priority_queue<std::pair<double,int>,
..., std::greater<...>>`: the popped element is the least pair. -/
def pqLeB (a b : WithTop W × Int) : Bool :=
  decide (a.1 < b.1) || (decide (a.1 = b.1) && decide (a.2 ≤ b.2))

/-- The least entry of the queue (the one `top()` yields). -/
def pqMinEntry : List (WithTop W × Int) → Option (WithTop W × Int)
  | [] => none
  | x :: rest =>
    match pqMinEntry rest with
    | none => some x
    | some y => some (if pqLeB x y then x else y)

/-- `top()` plus `pop()`: yield the least entry and the queue without it. -/
def pqPop (pq : List (WithTop W × Int)) :
    Option ((WithTop W × Int) × List (WithTop W × Int)) :=
  match pqMinEntry pq with
  | none => none
  | some x => some (x, pq.erase x)

/-- The relaxation loop over the outgoing edges of the vertex just marked
visited (at position `index` in `v`).  For each edge: find the target's
index in `v` (the `-1` case makes the following `Dv` subscript undefined
behavior), and when the tentative distance through `vertex` improves on the
target's, update `Dv`, set the predecessor, and push the new pair. -/
def relaxAll (g : Digraph VertexInfo EdgeInfo) (edgeWeightFunc : EdgeInfo → W)
    (vertex : Int) (index : Nat) :
    List (DigraphEdge EdgeInfo) → DState W → Except CxxAbort (DState W)
  | [], st => .ok st
  | ed :: rest, st =>
    match indexOf? ed.toVertex g.v with
    | none => .error .undefinedBehavior
    | some indexW =>
    match st.Dv[indexW]?, st.Dv[index]? with
    | some dW, some dI =>
      match edgeInfo g vertex ed.toVertex with
      | .error err => .error err
      | .ok info =>
        if dI + (edgeWeightFunc info : WithTop W) < dW then
          relaxAll g edgeWeightFunc vertex index rest
            { st with Dv := st.Dv.set indexW (dI + (edgeWeightFunc info : WithTop W)),
                      Pv := mapAssign st.Pv ed.toVertex vertex,
                      pq := st.pq ++ [(dI + (edgeWeightFunc info : WithTop W), ed.toVertex)] }
        else relaxAll g edgeWeightFunc vertex index rest st
    | _, _ => .error .undefinedBehavior

/-- The `while (!pq.empty())` loop of `findShortestPaths`.  Pop the least
pair; find the vertex's index in `v`; if not yet visited, mark it visited and
relax its outgoing edges (`m.at` may throw); then loop.  `fuel` is a
modelling bound on the number of iterations, proved sufficient later. -/
def dijkstraLoop (g : Digraph VertexInfo EdgeInfo) (edgeWeightFunc : EdgeInfo → W) :
    Nat → DState W → Except CxxAbort (List (Int × Int))
  | 0, _ => .error .outOfFuel
  | fuel + 1, st =>
    match pqPop st.pq with
    | none => .ok st.Pv
    | some (top, pq1) =>
      match indexOf? top.2 g.v with
      | none => .error .undefinedBehavior
      | some index =>
      match st.Kv[index]? with
      | none => .error .undefinedBehavior
      | some kv =>
        if kv = false then
          match mapFind g.m top.2 with
          | none => .error .mapAtOutOfRange
          | some r =>
            match relaxAll g edgeWeightFunc top.2 index r.edges
                    { st with pq := pq1, Kv := st.Kv.set index true } with
            | .error err => .error err
            | .ok st1 => dijkstraLoop g edgeWeightFunc fuel st1
        else dijkstraLoop g edgeWeightFunc fuel { st with pq := pq1 }

/-- `findShortestPaths(startVertex, edgeWeightFunc)`: initialize `Kv`, `Pv`,
`Dv`; find the start's index (the `-1` case makes `Dv[startIndex] = 0` an
out-of-bounds write, i.e. undefined behavior — the source never checks that
`startVertex` exists); zero the start's distance, seed the queue with
`(0, startVertex)`, and run the loop. -/
def findShortestPaths (g : Digraph VertexInfo EdgeInfo) (startVertex : Int)
    (edgeWeightFunc : EdgeInfo → W) : Except CxxAbort (List (Int × Int)) :=
  let Kv : List Bool := List.replicate g.v.length false
  let Pv : List (Int × Int) := initPvLoop g.v []
  let Dv : List (WithTop W) := List.replicate g.v.length ⊤
  match indexOf? startVertex g.v with
  | none => .error .undefinedBehavior
  | some startIndex =>
    dijkstraLoop g edgeWeightFunc (g.e.length + 2)
      { Kv := Kv, Pv := Pv, Dv := Dv.set startIndex 0,
        pq := [((0 : WithTop W), startVertex)] }

/-- `true` when the graph's adjacency structure holds an edge `a → b`:
`a`'s record exists and its outgoing list mentions `b`. -/
def hasEdge (g : Digraph VertexInfo EdgeInfo) (a b : Int) : Bool :=
  match mapFind g.m a with
  | none => false
  | some r => r.edges.any (fun ed => ed.toVertex == b)

/-- The one-step edge relation of the graph, for reachability statements. -/
def stepEdge (g : Digraph VertexInfo EdgeInfo) (a b : Int) : Prop :=
  hasEdge g a b = true

/-- `b` is reachable from `a` by a directed path (including the empty path). -/
def Reachable (g : Digraph VertexInfo EdgeInfo) : Int → Int → Prop :=
  Relation.ReflTransGen (stepEdge g)

/-- Well-formedness: the representation invariant tying together `m`, `v`,
`e` and the two counters.  Every state reachable through the public
interface satisfies it (proved below). -/
def WF (g : Digraph VertexInfo EdgeInfo) : Prop :=
  g.v.Nodup ∧
  (g.m.map Prod.fst).Nodup ∧
  (∀ p ∈ g.m, p.1 ∈ g.v) ∧
  (∀ x ∈ g.v, (mapFind g.m x).isSome = true) ∧
  (∀ p ∈ g.m, ∀ ed ∈ p.2.edges, ed.fromVertex = p.1 ∧ ed.toVertex ∈ g.v) ∧
  (∀ p ∈ g.m, (p.2.edges.map DigraphEdge.toVertex).Nodup) ∧
  g.e.Nodup ∧
  (∀ pr ∈ g.e, hasEdge g pr.1 pr.2 = true) ∧
  (∀ p ∈ g.m, ∀ ed ∈ p.2.edges, (p.1, ed.toVertex) ∈ g.e) ∧
  g.vertexC = (g.v.length : Int) ∧
  g.edgeC = (g.e.length : Int)

instance (g : Digraph VertexInfo EdgeInfo) : Decidable (WF g) := by
  unfold WF; infer_instance

/-- All ordered (source, destination) pairs stored in the adjacency lists. -/
def allPairs (g : Digraph VertexInfo EdgeInfo) : List (Int × Int) :=
  g.m.flatMap (fun p => p.2.edges.map (fun ed => (ed.fromVertex, ed.toVertex)))

/-- The sum of the outgoing-edge-list sizes over all vertex records. -/
def sumOutdeg (g : Digraph VertexInfo EdgeInfo) : Nat :=
  (g.m.map (fun p => p.2.edges.length)).sum

/-- Spec invariant 1: every edge's endpoints are vertices currently present. -/
def Inv1 (g : Digraph VertexInfo EdgeInfo) : Prop :=
  ∀ p ∈ g.m, ∀ ed ∈ p.2.edges, ed.fromVertex ∈ g.v ∧ ed.toVertex ∈ g.v

/-- Spec invariant 2: no two edges share the same ordered (source, destination) pair. -/
def Inv2 (g : Digraph VertexInfo EdgeInfo) : Prop :=
  (allPairs g).Nodup

/-- Spec invariant 3: the vertex count equals the number of distinct
identifiers present, and the edge count equals the sum of the
outgoing-edge-list sizes over all vertices. -/
def Inv3 (g : Digraph VertexInfo EdgeInfo) : Prop :=
  g.vertexC = (g.v.dedup.length : Int) ∧ g.edgeC = (sumOutdeg g : Int)

/-- The number of edges incident on `vertex` (as source or destination). -/
def incidentCount (g : Digraph VertexInfo EdgeInfo) (vertex : Int) : Nat :=
  (g.e.filter (fun pr => pr.1 = vertex ∨ pr.2 = vertex)).length

/-- The number of outgoing edges recorded for `x` (0 when `x` has no record). -/
def outdeg (g : Digraph VertexInfo EdgeInfo) (x : Int) : Nat :=
  match mapFind g.m x with
  | none => 0
  | some r => r.edges.length

/-- The aborts that correspond to a thrown `DigraphException` (as opposed to
`std::out_of_range` from `map::at`, undefined behavior, or the fuel marker). -/
def isDigraphException : CxxAbort → Bool
  | .vertexNotExist => true
  | .vertexExist => true
  | .edgeExist => true
  | .noSuchEdge => true
  | _ => false

instance {ε α : Type} [DecidableEq ε] [DecidableEq α] : DecidableEq (Except ε α) :=
  fun a b =>
    match a, b with
    | .error x, .error y => decidable_of_iff (x = y) (by constructor; (intro h; cases h; rfl); (intro h; cases h; rfl))
    | .error _, .ok _ => isFalse (by intro h; cases h)
    | .ok _, .error _ => isFalse (by intro h; cases h)
    | .ok x, .ok y => decidable_of_iff (x = y) (by constructor; (intro h; cases h; rfl); (intro h; cases h; rfl))

/-- The empty graph over `Int` payloads and `Int` ("double") edge weights. -/
def G0 : Digraph Int Int := emptyDigraph

/-- A graph with the single isolated vertex `1`. -/
def G1 : Digraph Int Int := (addVertex G0 1 0).1

/-- The spec's shortest-path example: vertices `{1,2,3}`, edges `1→2`
(weight 5), `1→3` (weight 2), `3→2` (weight 1); payloads are the weights. -/
def G3 : Digraph Int Int :=
  (addEdge (addEdge (addEdge
    (addVertex (addVertex (addVertex G0 1 0).1 2 0).1 3 0).1
    1 2 5).1 1 3 2).1 3 2 1).1

/-- The predicate deciding which saved edges `removeVertex(vertex)` re-adds:
those incident on `vertex` (as source or destination) are dropped. -/
def keepEdge (vertex : Int) (ed : DigraphEdge EdgeInfo) : Bool :=
  decide (ed.fromVertex ≠ vertex ∧ ed.toVertex ≠ vertex)

/-- The vertex records produced by the first rebuild loop of `removeVertex`:
one fresh record per identifier, with the saved payload and no edges. -/
def rebuildVertexRecs (m_ : List (Int × DigraphVertex VertexInfo EdgeInfo)) (ns : List Int) :
    List (Int × DigraphVertex VertexInfo EdgeInfo) :=
  ns.filterMap (fun n => (mapFind m_ n).map (fun r => (n, ⟨r.vinfo, []⟩)))

/-- The (source, destination) pairs the second rebuild loop of `removeVertex`
re-adds, in order: for each surviving identifier, its saved outgoing edges
not incident on `vertex`. -/
def remEdges (m_ : List (Int × DigraphVertex VertexInfo EdgeInfo)) (vertex : Int)
    (ns : List Int) : List (Int × Int) :=
  ns.flatMap (fun n =>
    match mapFind m_ n with
    | none => []
    | some rn => (rn.edges.filter (keepEdge vertex)).map (fun ed => (ed.fromVertex, ed.toVertex)))

/-- Induction statement for the sweep `DFTr` at a given fuel: on a duplicate-
free working vector of present vertices containing the root, with enough
fuel, the sweep succeeds; the survivors are a sublist; the root is removed;
everything removed is reachable from the root; and the removed set is closed
under outgoing edges. -/
def DFTrP (g : Digraph VertexInfo EdgeInfo) (fuel : Nat) : Prop :=
  ∀ root vs, (∀ x ∈ vs, x ∈ g.v) → vs.Nodup → root ∈ vs → vs.length ≤ fuel →
    ∃ rest, DFTr g fuel root vs = some rest ∧ rest.Sublist vs ∧ root ∉ rest ∧
      (∀ x ∈ vs, x ∉ rest → Reachable g root x) ∧
      (∀ u ∈ vs, u ∉ rest → ∀ w, stepEdge g u w → w ∉ rest)

/-- Induction statement for the edge loop of the sweep, at a given fuel:
everything it removes is reachable from some edge target; the removed set is
closed under outgoing edges; and every listed edge target ends up removed. -/
def DFTrQ (g : Digraph VertexInfo EdgeInfo) (fuel : Nat) : Prop :=
  ∀ (eds : List (DigraphEdge EdgeInfo)) vs,
    (∀ x ∈ vs, x ∈ g.v) → vs.Nodup → vs.length ≤ fuel →
    ∃ vs', DFTrEdges (DFTr g fuel) eds vs = some vs' ∧ vs'.Sublist vs ∧
      (∀ x ∈ vs, x ∉ vs' → ∃ ed ∈ eds, Reachable g ed.toVertex x) ∧
      (∀ u ∈ vs, u ∉ vs' → ∀ w, stepEdge g u w → w ∉ vs') ∧
      (∀ ed ∈ eds, ed.toVertex ∉ vs')

/-- The outdegree recorded at position `i` of the vertex array. -/
def outdegAt (g : Digraph VertexInfo EdgeInfo) (i : Nat) : Nat :=
  match g.v[i]? with
  | none => 0
  | some x => outdeg g x

/-- The total outdegree of the vertices not yet marked visited. -/
def unprocSum (g : Digraph VertexInfo EdgeInfo) (Kv : List Bool) : Nat :=
  ((List.range g.v.length).map
    (fun i => if Kv[i]? = some true then 0 else outdegAt g i)).sum

/-- The loop potential: queue length plus unvisited outdegree.  It strictly
decreases at every iteration of `dijkstraLoop`, bounding the number of
iterations by `1 + |e|` from the initial state. -/
def dPhi (g : Digraph VertexInfo EdgeInfo) (st : DState W) : Nat :=
  st.pq.length + unprocSum g st.Kv

/-- The invariant of the Dijkstra loop, relative to graph `g` and start
vertex `start`: sizes of the three arrays; `Pv`'s keys are exactly `v`;
distances are non-negative; the start keeps distance `0` and predecessor
`start`; a non-start vertex maps to itself in `Pv` exactly while its
distance is infinite; a finite distance implies reachability from the
start; queue entries carry present, reachable vertices with finite
distances; every vertex with a finite distance is visited or queued; and
the outgoing edges of every visited vertex lead to finite distances. -/
structure DInv (g : Digraph VertexInfo EdgeInfo) (start : Int) (st : DState W) : Prop where
  hKlen : st.Kv.length = g.v.length
  hDlen : st.Dv.length = g.v.length
  hPkeys : st.Pv.map Prod.fst = g.v
  hnneg : ∀ d ∈ st.Dv, 0 ≤ d
  hzero : ∀ i0, indexOf? start g.v = some i0 → st.Dv[i0]? = some 0
  hPstart : mapFind st.Pv start = some start
  hself : ∀ x ∈ g.v, ¬ x = start → ∀ ix, indexOf? x g.v = some ix →
    (mapFind st.Pv x = some x ↔ st.Dv[ix]? = some ⊤)
  hfinreach : ∀ x ∈ g.v, ∀ ix, indexOf? x g.v = some ix →
    ¬ st.Dv[ix]? = some ⊤ → Reachable g start x
  hqueue : ∀ pr ∈ st.pq, pr.2 ∈ g.v ∧ Reachable g start pr.2 ∧
    ∀ i, indexOf? pr.2 g.v = some i → ¬ st.Dv[i]? = some ⊤
  hE : ∀ x ∈ g.v, ∀ ix, indexOf? x g.v = some ix → ¬ st.Dv[ix]? = some ⊤ →
    st.Kv[ix]? = some true ∨ ∃ pr ∈ st.pq, pr.2 = x
  hP : ∀ x ∈ g.v, ∀ ix, indexOf? x g.v = some ix → st.Kv[ix]? = some true →
    ∀ y, stepEdge g x y → ∀ iy, indexOf? y g.v = some iy → ¬ st.Dv[iy]? = some ⊤

-- ===== end of definitions; helper lemmas and claim theorems follow =====

theorem mapFind_mapAssign_self {α : Type} (m : List (Int × α)) (k : Int) (val : α) :
    mapFind (mapAssign m k val) k = some val := by
  induction m with
  | nil => simp [mapAssign, mapFind]
  | cons p rest ih =>
    by_cases h : p.1 = k
    · simp [mapAssign, h, mapFind]
    · simp [mapAssign, h, mapFind, ih]

theorem mapFind_mapAssign_ne {α : Type} (m : List (Int × α)) (k k' : Int) (val : α)
    (h : k' ≠ k) : mapFind (mapAssign m k val) k' = mapFind m k' := by
  have hk : ¬ (k = k') := fun hh => h hh.symm
  induction m with
  | nil => simp [mapAssign, mapFind, hk]
  | cons p rest ih =>
    by_cases hp : p.1 = k
    · subst hp
      simp [mapAssign, mapFind, hk]
    · simp only [mapAssign, hp, if_false, mapFind]
      by_cases hp' : p.1 = k'
      · simp [mapFind, hp']
      · simp [mapFind, hp', ih]

/-- A successful lookup returns a pair that is in the list. -/
theorem mapFind_mem {α : Type} {m : List (Int × α)} {k : Int} {r : α}
    (h : mapFind m k = some r) : (k, r) ∈ m := by
  induction m with
  | nil => simp [mapFind] at h
  | cons p rest ih =>
    obtain ⟨a, b⟩ := p
    by_cases hp : a = k
    · subst hp
      simp [mapFind] at h
      subst h
      exact List.mem_cons_self _ _
    · simp [mapFind, hp] at h
      exact List.mem_cons_of_mem _ (ih h)

theorem mapFind_eq_none_iff {α : Type} {m : List (Int × α)} {k : Int} :
    mapFind m k = none ↔ k ∉ m.map Prod.fst := by
  induction m with
  | nil => simp [mapFind]
  | cons p rest ih =>
    by_cases hp : p.1 = k
    · simp [mapFind, hp]
    · have : ¬ (k = p.1) := fun hh => hp hh.symm
      simp [mapFind, hp, ih, this]

theorem mapFind_isSome_iff {α : Type} {m : List (Int × α)} {k : Int} :
    (mapFind m k).isSome = true ↔ k ∈ m.map Prod.fst := by
  rcases h : mapFind m k with _ | r
  · simpa [h] using (mapFind_eq_none_iff.mp h)
  · simp only [Option.isSome_some, true_iff]
    exact List.mem_map.mpr ⟨(k, r), mapFind_mem h, rfl⟩

theorem mapAssign_keys_of_mem {α : Type} (m : List (Int × α)) (k : Int) (val : α)
    (h : k ∈ m.map Prod.fst) :
    (mapAssign m k val).map Prod.fst = m.map Prod.fst := by
  induction m with
  | nil => simp at h
  | cons p rest ih =>
    by_cases hp : p.1 = k
    · simp [mapAssign, hp]
    · simp only [List.map_cons, List.mem_cons] at h
      rcases h with h | h

      · exact absurd h.symm hp
      · simp [mapAssign, hp, ih h]

theorem mapAssign_of_not_mem {α : Type} (m : List (Int × α)) (k : Int) (val : α)
    (h : k ∉ m.map Prod.fst) : mapAssign m k val = m ++ [(k, val)] := by
  induction m with
  | nil => simp [mapAssign]
  | cons p rest ih =>
    simp only [List.map_cons, List.mem_cons] at h
    push_neg at h
    have hp : ¬ (p.1 = k) := fun hh => h.1 hh.symm
    simp [mapAssign, hp, ih h.2]

-- ----- C1: removeVertex on an absent identifier -----

/-- C1 (code bug witness): the spec and the header comment both promise that
`removeVertex` on an absent identifier throws `NoSuchVertex`, but the source
never checks existence: on the one-vertex graph `G1`, `removeVertex(2)`
returns normally and rebuilds the graph unchanged — no exception at all. -/
theorem removeVertex_absent_no_exception :
    removeVertex G1 2 = (G1, none) := by decide

-- ----- C3: the worked shortest-path example -----

/-- C3: on the spec's example graph (vertices {1,2,3}; 1→2 weight 5,
1→3 weight 2, 3→2 weight 1), `findShortestPaths(1, weightFn)` returns the
predecessor map {1→1, 2→3, 3→1}: vertex 2 is reached via 1→3→2 (cost 3),
beating the direct edge (cost 5). -/
theorem findShortestPaths_spec_example :
    findShortestPaths G3 1 (fun z => z) = .ok [(1, 1), (2, 3), (3, 1)] := by decide

-- ----- C5: failed mutators leave the graph untouched -----

/-- C5: whenever `addVertex`, `addEdge` or `removeEdge` raises a
`DigraphException` (`VertexAlreadyExists`, `NoSuchVertex`, `NoSuchEdge`,
`EdgeAlreadyExists`), validation happened before any structural change and
the returned state is exactly the prior graph. -/
theorem mutator_exception_leaves_state (g : Digraph VertexInfo EdgeInfo) :
    (∀ x vinfo err, (addVertex g x vinfo).2 = some err → (addVertex g x vinfo).1 = g) ∧
    (∀ a b einfo err, (addEdge g a b einfo).2 = some err → (addEdge g a b einfo).1 = g) ∧
    (∀ a b err, (removeEdge g a b).2 = some err → isDigraphException err = true →
      (removeEdge g a b).1 = g) := by
  refine ⟨?_, ?_, ?_⟩
  · intro x vinfo err h
    unfold addVertex at h ⊢
    rcases hf : findVertexNotExist g x with _ | e
    · rw [hf] at h
      simp at h
    · rfl
  · intro a b einfo err h
    unfold addEdge at h ⊢
    rcases hf : findVertex g a with e | i
    · rfl
    · rw [hf] at h
      rcases hg : findVertex g b with e | j
      · rfl
      · rw [hg] at h
        dsimp only at h ⊢
        split_ifs at h ⊢ with hd
        all_goals simp_all
  · intro a b err h hexc
    unfold removeEdge at h ⊢
    rcases he : edgeInfo g a b with e | info
    · rfl
    · rw [he] at h
      rcases hm : mapFind g.m a with _ | r
      · rfl
      · rw [hm] at h
        dsimp only at h ⊢
        split_ifs at h ⊢ with hin
        simp only [Option.some_inj] at h
        subst h
        simp [isDigraphException] at hexc

/-- Witness for C5 at concrete inputs: a duplicate `addVertex`, an `addEdge`
with a missing endpoint, and a `removeEdge` of an absent edge all fail and
leave the one-vertex graph `G1` exactly as it was. -/
theorem mutator_exception_leaves_state_witness :
    (addVertex G1 1 0).1 = G1 ∧ (addEdge G1 1 2 0).1 = G1 ∧ (removeEdge G1 1 1).1 = G1 :=
  ⟨(mutator_exception_leaves_state G1).1 1 0 .vertexExist (by decide),
   (mutator_exception_leaves_state G1).2.1 1 2 0 .vertexNotExist (by decide),
   (mutator_exception_leaves_state G1).2.2 1 1 .noSuchEdge (by decide) (by decide)⟩

theorem find?_append_none {α : Type} (p : α → Bool) (l1 l2 : List α)
    (h : l1.find? p = none) : (l1 ++ l2).find? p = l2.find? p := by
  induction l1 with
  | nil => simp
  | cons a rest ih =>
    by_cases hpa : p a = true
    · rw [List.find?_cons_of_pos _ hpa] at h
      simp at h
    · rw [List.find?_cons_of_neg _ hpa] at h
      rw [List.cons_append, List.find?_cons_of_neg _ hpa]
      exact ih h

-- ----- C10: self-loops are accepted -----

/-- C10: nothing in `addEdge` rejects `source == destination`: for a present
vertex with no existing self-loop, `addEdge(v, v, info)` succeeds,
increments `edgeCount()` by one, and `edgeInfo(v, v)` then returns `info`. -/
theorem addEdge_self_loop_accepted (g : Digraph VertexInfo EdgeInfo) (v0 : Int)
    (einfo : EdgeInfo) (hwf : WF g) (hv : v0 ∈ g.v) (hno : hasEdge g v0 v0 = false) :
    (addEdge g v0 v0 einfo).2 = none ∧
    (addEdge g v0 v0 einfo).1.edgeC = g.edgeC + 1 ∧
    edgeInfo (addEdge g v0 v0 einfo).1 v0 v0 = .ok einfo := by
  obtain ⟨-, -, -, hsome, -⟩ := hwf
  obtain ⟨r, hr⟩ : ∃ r, mapFind g.m v0 = some r := by
    rcases hmf : mapFind g.m v0 with _ | r
    · have := hsome v0 hv
      rw [hmf] at this
      simp at this
    · exact ⟨r, rfl⟩
  have hfv : findVertex g v0 = .ok r := by simp [findVertex, hr]
  have hany : (r.edges.any (fun it => it.toVertex == v0)) = false := by
    simpa [hasEdge, hr] using hno
  have hstep : addEdge g v0 v0 einfo =
      ({ g with edgeC := g.edgeC + 1,
                e := g.e ++ [(v0, v0)],
                m := mapAssign g.m v0
                       ⟨r.vinfo, r.edges ++ [⟨v0, v0, einfo⟩]⟩ }, none) := by
    simp [addEdge, hfv, hany]
  refine ⟨by rw [hstep], by rw [hstep], ?_⟩
  rw [hstep]
  have hfind : ((r.edges ++ [(⟨v0, v0, einfo⟩ : DigraphEdge EdgeInfo)]).find?
      (fun it => it.toVertex == v0)) = some ⟨v0, v0, einfo⟩ := by
    rw [find?_append_none]
    · simp [List.find?]
    · rw [List.find?_eq_none]
      intro x hx
      have hall : ∀ y ∈ r.edges, ¬ y.toVertex = v0 := by
        simpa [List.any_eq_false] using hany
      simpa using hall x hx
  simp [edgeInfo, VertexExist, hv, mapFind_mapAssign_self, hfind]

/-- Witness for C10 on the example graph: adding the self-loop `2 → 2` to
`G3` succeeds, bumps the edge count, and stores the payload. -/
theorem addEdge_self_loop_accepted_witness :
    (addEdge G3 2 2 7).2 = none ∧
    (addEdge G3 2 2 7).1.edgeC = G3.edgeC + 1 ∧
    edgeInfo (addEdge G3 2 2 7).1 2 2 = .ok 7 :=
  addEdge_self_loop_accepted G3 2 7 (by decide) (by decide) (by decide)

theorem mapAssign_mapAssign {α : Type} (m : List (Int × α)) (k : Int) (v1 v2 : α) :
    mapAssign (mapAssign m k v1) k v2 = mapAssign m k v2 := by
  induction m with
  | nil => simp [mapAssign]
  | cons p rest ih =>
    by_cases hp : p.1 = k
    · simp [mapAssign, hp]
    · simp [mapAssign, hp, ih]

theorem mapFind_append_left {α : Type} {m1 : List (Int × α)} (m2 : List (Int × α)) (k : Int)
    {r : α} (h : mapFind m1 k = some r) : mapFind (m1 ++ m2) k = some r := by
  induction m1 with
  | nil => simp [mapFind] at h
  | cons p rest ih =>
    by_cases hp : p.1 = k
    · simp [mapFind, hp] at h ⊢
      exact h
    · simp [mapFind, hp] at h ⊢
      exact ih h

theorem mapFind_append_right {α : Type} {m1 : List (Int × α)} (m2 : List (Int × α)) (k : Int)
    (h : mapFind m1 k = none) : mapFind (m1 ++ m2) k = mapFind m2 k := by
  induction m1 with
  | nil => simp
  | cons p rest ih =>
    by_cases hp : p.1 = k
    · simp [mapFind, hp] at h
    · simp [mapFind, hp] at h ⊢
      exact ih h

theorem rebuildVertexRecs_keys (m_ : List (Int × DigraphVertex VertexInfo EdgeInfo))
    (ns : List Int) (h : ∀ n ∈ ns, (mapFind m_ n).isSome = true) :
    (rebuildVertexRecs m_ ns).map Prod.fst = ns := by
  induction ns with
  | nil => simp [rebuildVertexRecs]
  | cons n rest ih =>
    rcases hn : mapFind m_ n with _ | r
    · have := h n (List.mem_cons_self _ _)
      rw [hn] at this
      simp at this
    · simp only [rebuildVertexRecs, List.filterMap_cons, hn, Option.map_some']
      simpa [rebuildVertexRecs] using ih (fun y hy => h y (List.mem_cons_of_mem _ hy))

theorem mapFind_rebuildVertexRecs (m_ : List (Int × DigraphVertex VertexInfo EdgeInfo))
    (ns : List Int) (hnd : ns.Nodup) {n : Int} {rn : DigraphVertex VertexInfo EdgeInfo}
    (hmem : n ∈ ns) (hrn : mapFind m_ n = some rn) :
    mapFind (rebuildVertexRecs m_ ns) n = some ⟨rn.vinfo, []⟩ := by
  induction ns with
  | nil => simp at hmem
  | cons y rest ih =>
    by_cases hy : y = n
    · subst hy
      simp [rebuildVertexRecs, List.filterMap_cons, hrn, mapFind]
    · rcases hyr : mapFind m_ y with _ | ry
      · simp only [rebuildVertexRecs, List.filterMap_cons, hyr, Option.map_none']
        rcases List.mem_cons.mp hmem with h | h
        · exact absurd h.symm hy
        · exact ih (List.Nodup.of_cons hnd) h
      · simp only [rebuildVertexRecs, List.filterMap_cons, hyr, Option.map_some']
        rcases List.mem_cons.mp hmem with h | h
        · exact absurd h.symm hy
        · rw [mapFind]
          simp only [hy, if_false]
          exact ih (List.Nodup.of_cons hnd) h

/-- Full description of the first rebuild loop of `removeVertex`: it appends
the surviving identifiers to `v`, appends fresh empty records to `m`, bumps
`vertexC` accordingly, and touches nothing else. -/
theorem rvAddVertices_spec (m_ : List (Int × DigraphVertex VertexInfo EdgeInfo)) :
    ∀ (ns : List Int) (g : Digraph VertexInfo EdgeInfo),
    (∀ n ∈ ns, (mapFind m_ n).isSome = true) →
    ns.Nodup →
    (∀ n ∈ ns, n ∉ g.m.map Prod.fst) →
    rvAddVertices m_ g ns =
      ({ g with m := g.m ++ rebuildVertexRecs m_ ns,
                v := g.v ++ ns,
                vertexC := g.vertexC + (ns.length : Int) }, none) := by
  intro ns
  induction ns with
  | nil =>
    intro g _ _ _
    simp [rvAddVertices, rebuildVertexRecs]
  | cons n rest ih =>
    intro g hsome hnd hnotin
    obtain ⟨r, hr⟩ : ∃ r, mapFind m_ n = some r := by
      rcases hx : mapFind m_ n with _ | r
      · have := hsome n (List.mem_cons_self _ _)
        rw [hx] at this
        simp at this
      · exact ⟨r, rfl⟩
    have hker : n ∉ g.m.map Prod.fst := hnotin n (List.mem_cons_self _ _)
    have hnone : mapFind g.m n = none := mapFind_eq_none_iff.mpr hker
    have haddv : addVertex g n r.vinfo =
        ({ g with vertexC := g.vertexC + 1,
                  v := g.v ++ [n],
                  m := g.m ++ [(n, ⟨r.vinfo, []⟩)] }, none) := by
      simp [addVertex, findVertexNotExist, hnone, mapAssign_of_not_mem _ _ _ hker]
    rw [rvAddVertices, hr]
    dsimp only
    rw [haddv]
    dsimp only
    rw [ih _ (fun y hy => hsome y (List.mem_cons_of_mem _ hy)) (List.Nodup.of_cons hnd)]
    · simp only [rebuildVertexRecs, List.filterMap_cons, hr, Option.map_some']
      rw [Prod.mk.injEq]
      refine ⟨?_, rfl⟩
      simp only [Digraph.mk.injEq, List.append_assoc, List.singleton_append, List.length_cons,
        and_true, true_and]
      push_cast
      ring
    · intro y hy
      simp only [List.map_append, List.mem_append]
      push_neg
      constructor
      · exact hnotin y (List.mem_cons_of_mem _ hy)
      · intro hcon
        simp at hcon
        rcases List.nodup_cons.mp hnd with ⟨hn1, _⟩
        exact hn1 (hcon ▸ hy)

theorem mapAssign_self_of_find {α : Type} {m : List (Int × α)} {k : Int} {r : α}
    (h : mapFind m k = some r) : mapAssign m k r = m := by
  induction m with
  | nil => simp [mapFind] at h
  | cons p rest ih =>
    obtain ⟨a, b⟩ := p
    by_cases hp : a = k
    · subst hp
      simp only [mapFind, if_pos, Option.some_inj] at h
      subst h
      simp [mapAssign]
    · simp only [mapFind, hp, if_false] at h
      simp [mapAssign, hp, ih h]

theorem nodup_middle_notin_left {α β : Type} (f : α → β) (l1 l2 : List α) (a : α)
    (h : ((l1 ++ a :: l2).map f).Nodup) : ∀ x ∈ l1, ¬ f x = f a := by
  intro x hx hfx
  rw [List.map_append, List.map_cons] at h
  rcases List.nodup_append.mp h with ⟨-, -, hdisj⟩
  exact hdisj (List.mem_map_of_mem f hx) (by simp [hfx])

/-- Full description of the inner rebuild loop of `removeVertex` for a single
surviving vertex `n`: the saved edges not incident on `vertex` are appended
to `n`'s record in order, their pairs are pushed onto `e`, and `edgeC` grows
by the number kept. -/
theorem rvAddEdgesInner_spec (vertex : Int) :
    ∀ (eds : List (DigraphEdge EdgeInfo)) (g : Digraph VertexInfo EdgeInfo)
      (n : Int) (rn : DigraphVertex VertexInfo EdgeInfo),
    mapFind g.m n = some rn →
    (∀ ed ∈ eds, ed.fromVertex = n) →
    (∀ ed ∈ eds, keepEdge vertex ed = true → ed.toVertex ∈ g.m.map Prod.fst) →
    ((rn.edges ++ eds.filter (keepEdge vertex)).map DigraphEdge.toVertex).Nodup →
    rvAddEdgesInner vertex g eds =
      ({ g with m := mapAssign g.m n ⟨rn.vinfo, rn.edges ++ eds.filter (keepEdge vertex)⟩,
                e := g.e ++
                  (eds.filter (keepEdge vertex)).map (fun ed => (ed.fromVertex, ed.toVertex)),
                edgeC := g.edgeC + ((eds.filter (keepEdge vertex)).length : Int) },
       none) := by
  intro eds
  induction eds with
  | nil =>
    intro g n rn hrn _ _ _
    rw [rvAddEdgesInner]
    simp only [List.filter_nil, List.append_nil, List.map_nil, List.length_nil,
      Nat.cast_zero, add_zero]
    rw [show (⟨rn.vinfo, rn.edges⟩ : DigraphVertex VertexInfo EdgeInfo) = rn from rfl]
    rw [mapAssign_self_of_find hrn]
  | cons ed rest ih =>
    intro g n rn hrn hfrom hto hnd
    by_cases hkeep : keepEdge vertex ed = true
    · have hcond : ed.fromVertex ≠ vertex ∧ ed.toVertex ≠ vertex :=
        of_decide_eq_true hkeep
      have hfilter : (ed :: rest).filter (keepEdge vertex) =
          ed :: rest.filter (keepEdge vertex) := by
        simp [List.filter_cons, hkeep]
      have hf : ed.fromVertex = n := hfrom ed (List.mem_cons_self _ _)
      have hfv1 : findVertex g ed.fromVertex = .ok rn := by
        rw [hf]
        simp [findVertex, hrn]
      obtain ⟨j, hj⟩ : ∃ j, mapFind g.m ed.toVertex = some j := by
        have hmem := hto ed (List.mem_cons_self _ _) hkeep
        have := mapFind_isSome_iff.mpr hmem
        rcases hx : mapFind g.m ed.toVertex with _ | j
        · rw [hx] at this
          simp at this
        · exact ⟨j, rfl⟩
      have hfv2 : findVertex g ed.toVertex = .ok j := by simp [findVertex, hj]
      have hanyf : (rn.edges.any (fun it => it.toVertex == ed.toVertex)) = false := by
        rw [hfilter] at hnd
        have hnotin := nodup_middle_notin_left DigraphEdge.toVertex rn.edges
          (rest.filter (keepEdge vertex)) ed hnd
        simp only [List.any_eq_false]
        intro it hit
        simpa using hnotin it hit
      have hedge_eta : (⟨ed.fromVertex, ed.toVertex, ed.einfo⟩ : DigraphEdge EdgeInfo) = ed :=
        rfl
      have haddE : addEdge g ed.fromVertex ed.toVertex ed.einfo =
          ({ g with edgeC := g.edgeC + 1,
                    e := g.e ++ [(ed.fromVertex, ed.toVertex)],
                    m := mapAssign g.m n ⟨rn.vinfo, rn.edges ++ [ed]⟩ }, none) := by
        rw [addEdge, hfv1, hfv2]
        dsimp only
        rw [if_neg (by simp [hanyf])]
        rw [hedge_eta, hf]
      rw [rvAddEdgesInner, if_pos hcond, haddE]
      dsimp only
      rw [ih _ n ⟨rn.vinfo, rn.edges ++ [ed]⟩ (mapFind_mapAssign_self _ _ _)
        (fun y hy => hfrom y (List.mem_cons_of_mem _ hy))
        (by
          intro y hy hk
          rw [mapAssign_keys_of_mem _ _ _ (mapFind_isSome_iff.mp (by simp [hrn]))]
          exact hto y (List.mem_cons_of_mem _ hy) hk)
        (by
          rw [hfilter] at hnd
          simpa [List.append_assoc] using hnd)]
      rw [hfilter]
      rw [Prod.mk.injEq]
      refine ⟨?_, rfl⟩
      simp only [Digraph.mk.injEq, and_true, true_and, mapAssign_mapAssign,
        List.append_assoc, List.singleton_append, List.length_cons, List.map_cons]
      push_cast
      ring
    · have hcond : ¬ (ed.fromVertex ≠ vertex ∧ ed.toVertex ≠ vertex) := by
        intro hc
        exact hkeep (decide_eq_true hc)
      have hfilter : (ed :: rest).filter (keepEdge vertex) =
          rest.filter (keepEdge vertex) := by
        simp only [List.filter_cons]
        rw [if_neg (by simpa using hkeep)]
      rw [rvAddEdgesInner, if_neg hcond]
      rw [ih _ n rn hrn (fun y hy => hfrom y (List.mem_cons_of_mem _ hy))
        (fun y hy hk => hto y (List.mem_cons_of_mem _ hy) hk)
        (by rw [hfilter] at hnd; exact hnd)]
      rw [hfilter]

/-- Full description of the outer rebuild loop of `removeVertex`: starting
from fresh empty records, it fills each surviving vertex's record with its
kept saved edges, in order, and accumulates the edge pairs and the count. -/
theorem rvAddEdgesOuter_spec (m_ : List (Int × DigraphVertex VertexInfo EdgeInfo))
    (vertex : Int) :
    ∀ (ns : List Int) (g : Digraph VertexInfo EdgeInfo),
    ns.Nodup →
    (∀ n ∈ ns, ∀ rn, mapFind m_ n = some rn → mapFind g.m n = some ⟨rn.vinfo, []⟩) →
    (∀ n ∈ ns, (mapFind m_ n).isSome = true) →
    (∀ n ∈ ns, ∀ rn, mapFind m_ n = some rn → ∀ ed ∈ rn.edges,
       ed.fromVertex = n ∧ (keepEdge vertex ed = true → ed.toVertex ∈ g.m.map Prod.fst)) →
    (∀ n ∈ ns, ∀ rn, mapFind m_ n = some rn → (rn.edges.map DigraphEdge.toVertex).Nodup) →
    ∃ g', rvAddEdgesOuter m_ vertex g ns = (g', none) ∧
      g'.v = g.v ∧ g'.vertexC = g.vertexC ∧
      g'.m.map Prod.fst = g.m.map Prod.fst ∧
      g'.e = g.e ++ remEdges m_ vertex ns ∧
      g'.edgeC = g.edgeC + ((remEdges m_ vertex ns).length : Int) ∧
      (∀ n ∈ ns, ∀ rn, mapFind m_ n = some rn →
         mapFind g'.m n = some ⟨rn.vinfo, rn.edges.filter (keepEdge vertex)⟩) ∧
      (∀ y, y ∉ ns → mapFind g'.m y = mapFind g.m y) := by
  intro ns
  induction ns with
  | nil =>
    intro g _ _ _ _ _
    refine ⟨g, by rw [rvAddEdgesOuter], rfl, rfl, rfl, by simp [remEdges], ?_, ?_, fun y _ => rfl⟩
    · simp [remEdges]
    · intro n hn
      simp at hn
  | cons n rest ih =>
    intro g hnd h2 h1 h4 h5
    have hmemn : n ∈ n :: rest := List.mem_cons_self _ _
    obtain ⟨rn, hrn⟩ : ∃ rn, mapFind m_ n = some rn := by
      have := h1 n hmemn
      rcases hx : mapFind m_ n with _ | rn
      · rw [hx] at this
        simp at this
      · exact ⟨rn, rfl⟩
    have hg0 : mapFind g.m n = some ⟨rn.vinfo, []⟩ := h2 n hmemn rn hrn
    have hinner := rvAddEdgesInner_spec vertex rn.edges g n ⟨rn.vinfo, []⟩ hg0
      (fun ed hed => (h4 n hmemn rn hrn ed hed).1)
      (fun ed hed hk => (h4 n hmemn rn hrn ed hed).2 hk)
      (by
        simp only [List.nil_append]
        exact (h5 n hmemn rn hrn).sublist
          (List.Sublist.map DigraphEdge.toVertex (List.filter_sublist _)))
    have hkeysg1 : (mapAssign g.m n
        (⟨rn.vinfo, [] ++ rn.edges.filter (keepEdge vertex)⟩ :
          DigraphVertex VertexInfo EdgeInfo)).map Prod.fst = g.m.map Prod.fst :=
      mapAssign_keys_of_mem _ _ _ (mapFind_isSome_iff.mp (by simp [hg0]))
    have hnn : n ∉ rest := (List.nodup_cons.mp hnd).1
    obtain ⟨g'', hrun, hv, hvc, hkeys, he, hec, hrecs, hother⟩ := ih
      ({ g with m := mapAssign g.m n ⟨rn.vinfo, [] ++ rn.edges.filter (keepEdge vertex)⟩,
                e := g.e ++
                  (rn.edges.filter (keepEdge vertex)).map (fun ed => (ed.fromVertex, ed.toVertex)),
                edgeC := g.edgeC + ((rn.edges.filter (keepEdge vertex)).length : Int) })
      (List.Nodup.of_cons hnd)
      (by
        intro y hy ry hry
        have hyne : ¬ (y = n) := fun hc => hnn (hc ▸ hy)
        dsimp only
        rw [mapFind_mapAssign_ne _ _ _ _ hyne]
        exact h2 y (List.mem_cons_of_mem _ hy) ry hry)
      (fun y hy => h1 y (List.mem_cons_of_mem _ hy))
      (by
        intro y hy ry hry ed hed
        refine ⟨(h4 y (List.mem_cons_of_mem _ hy) ry hry ed hed).1, ?_⟩
        intro hk
        dsimp only
        rw [hkeysg1]
        exact (h4 y (List.mem_cons_of_mem _ hy) ry hry ed hed).2 hk)
      (fun y hy => h5 y (List.mem_cons_of_mem _ hy))
    have hrem : remEdges m_ vertex (n :: rest) =
        (rn.edges.filter (keepEdge vertex)).map (fun ed => (ed.fromVertex, ed.toVertex)) ++
          remEdges m_ vertex rest := by
      simp [remEdges, hrn]
    refine ⟨g'', ?_, ?_, ?_, ?_, ?_, ?_, ?_, ?_⟩
    · rw [rvAddEdgesOuter, hrn]
      dsimp only
      rw [hinner]
      dsimp only
      exact hrun
    · rw [hv]
    · rw [hvc]
    · rw [hkeys]
      exact hkeysg1
    · rw [he, hrem]
      simp [List.append_assoc]
    · rw [hec, hrem]
      dsimp only
      simp only [List.length_append, List.length_map]
      push_cast
      ring
    · intro y hy ry hry
      rcases List.mem_cons.mp hy with hc | hc
      · subst hc
        rw [hrn] at hry
        injection hry with hrw
        subst hrw
        rw [hother y hnn]
        dsimp only
        rw [mapFind_mapAssign_self]
        simp
      · exact hrecs y hc ry hry
    · intro y hy
      have hy1 : y ∉ rest := fun hc => hy (List.mem_cons_of_mem _ hc)
      have hy2 : ¬ (y = n) := fun hc => hy (hc ▸ List.mem_cons_self _ _)
      rw [hother y hy1]
      dsimp only
      rw [mapFind_mapAssign_ne _ _ _ _ hy2]

theorem mem_e_iff_hasEdge {g : Digraph VertexInfo EdgeInfo} (hwf : WF g) (a b : Int) :
    (a, b) ∈ g.e ↔ hasEdge g a b = true := by
  obtain ⟨-, -, -, -, -, -, -, hehas, hadj, -, -⟩ := hwf
  constructor
  · intro h
    exact hehas (a, b) h
  · intro h
    unfold hasEdge at h
    rcases hm : mapFind g.m a with _ | r
    · rw [hm] at h
      simp at h
    · rw [hm] at h
      obtain ⟨ed, hed, hba⟩ := List.any_eq_true.mp h
      have : (a, ed.toVertex) ∈ g.e := hadj (a, r) (mapFind_mem hm) ed hed
      rwa [eq_of_beq hba] at this

/-- Full description of `removeVertex` on a well-formed graph: it never
throws, keeps exactly the other vertices in order, rebuilds each surviving
record with the saved non-incident edges, and rebuilds `e` grouped by
source vertex. -/
theorem removeVertex_spec (g : Digraph VertexInfo EdgeInfo) (vertex : Int) (hwf : WF g) :
    ∃ g', removeVertex g vertex = (g', none) ∧
      g'.v = g.v.filter (fun ve => ¬ ve = vertex) ∧
      g'.vertexC = ((g.v.filter (fun ve => ¬ ve = vertex)).length : Int) ∧
      g'.m.map Prod.fst = g.v.filter (fun ve => ¬ ve = vertex) ∧
      g'.e = remEdges g.m vertex (g.v.filter (fun ve => ¬ ve = vertex)) ∧
      g'.edgeC = ((remEdges g.m vertex (g.v.filter (fun ve => ¬ ve = vertex))).length : Int) ∧
      (∀ n ∈ g.v.filter (fun ve => ¬ ve = vertex), ∀ rn, mapFind g.m n = some rn →
        mapFind g'.m n = some ⟨rn.vinfo, rn.edges.filter (keepEdge vertex)⟩) ∧
      (∀ y, y ∉ g.v.filter (fun ve => ¬ ve = vertex) → mapFind g'.m y = none) := by
  obtain ⟨hvnd, hknd, hkv, hsome, hft, hrnd, hend, hehas, hadj, hvc, hec⟩ := hwf
  have hvnd_ : (g.v.filter (fun ve => ¬ ve = vertex)).Nodup := hvnd.filter _
  have hsub : ∀ n ∈ g.v.filter (fun ve => ¬ ve = vertex), n ∈ g.v :=
    fun n hn => List.mem_of_mem_filter hn
  have hsome_ : ∀ n ∈ g.v.filter (fun ve => ¬ ve = vertex), (mapFind g.m n).isSome = true :=
    fun n hn => hsome n (hsub n hn)
  have hvadd := rvAddVertices_spec g.m (g.v.filter (fun ve => ¬ ve = vertex))
    ({ m := [], v := [], e := [], vertexC := 0, edgeC := 0 }) hsome_ hvnd_ (by simp)
  have hkeys1 : (rebuildVertexRecs g.m (g.v.filter (fun ve => ¬ ve = vertex))).map Prod.fst =
      g.v.filter (fun ve => ¬ ve = vertex) :=
    rebuildVertexRecs_keys _ _ hsome_
  have houter := rvAddEdgesOuter_spec g.m vertex (g.v.filter (fun ve => ¬ ve = vertex))
    ({ m := [] ++ rebuildVertexRecs g.m (g.v.filter (fun ve => ¬ ve = vertex)),
       v := [] ++ g.v.filter (fun ve => ¬ ve = vertex), e := [],
       vertexC := 0 + ((g.v.filter (fun ve => ¬ ve = vertex)).length : Int), edgeC := 0 })
    hvnd_
    (by
      intro n hn rn hrn
      dsimp only
      rw [List.nil_append]
      exact mapFind_rebuildVertexRecs g.m _ hvnd_ hn hrn)
    hsome_
    (by
      intro n hn rn hrn ed hed
      have hmem : (n, rn) ∈ g.m := mapFind_mem hrn
      refine ⟨(hft (n, rn) hmem ed hed).1, ?_⟩
      intro hk
      dsimp only
      rw [List.nil_append, hkeys1]
      rw [List.mem_filter]
      refine ⟨(hft (n, rn) hmem ed hed).2, ?_⟩
      have := of_decide_eq_true hk
      simpa using this.2)
    (fun n hn rn hrn => hrnd (n, rn) (mapFind_mem hrn))
  obtain ⟨g'', hrun, hv, hvcq, hkeys, he, hecq, hrecs, hother⟩ := houter
  refine ⟨g'', ?_, ?_, ?_, ?_, ?_, ?_, ?_, ?_⟩
  · show removeVertex g vertex = (g'', none)
    unfold removeVertex
    dsimp only
    rw [hvadd]
    dsimp only
    exact hrun
  · rw [hv]
    simp
  · rw [hvcq]
    simp
  · rw [hkeys]
    dsimp only
    rw [List.nil_append]
    exact hkeys1
  · rw [he]
    simp
  · rw [hecq]
    simp
  · intro n hn rn hrn
    exact hrecs n hn rn hrn
  · intro y hy
    rw [hother y hy]
    dsimp only
    rw [List.nil_append]
    rw [mapFind_eq_none_iff, hkeys1]
    exact hy

theorem find?_filter_eq {α : Type} (p q : α → Bool) (l : List α)
    (h : ∀ x ∈ l, p x = true → q x = true) :
    (l.filter q).find? p = l.find? p := by
  induction l with
  | nil => simp
  | cons a rest ih =>
    by_cases hq : q a = true
    · rw [List.filter_cons_of_pos hq]
      by_cases hp : p a = true
      · rw [List.find?_cons_of_pos _ hp, List.find?_cons_of_pos _ hp]
      · rw [List.find?_cons_of_neg _ hp, List.find?_cons_of_neg _ hp]
        exact ih (fun x hx => h x (List.mem_cons_of_mem _ hx))
    · rw [List.filter_cons_of_neg hq]
      have hp : ¬ p a = true := fun hpa => hq (h a (List.mem_cons_self _ _) hpa)
      rw [List.find?_cons_of_neg _ hp]
      exact ih (fun x hx => h x (List.mem_cons_of_mem _ hx))

theorem length_filter_ne_of_nodup {v : List Int} {x : Int} (hnd : v.Nodup) (hx : x ∈ v) :
    (v.filter (fun y => ¬ y = x)).length = v.length - 1 := by
  induction v with
  | nil => simp at hx
  | cons y rest ih =>
    rcases List.nodup_cons.mp hnd with ⟨hy, hrest⟩
    by_cases hxy : y = x
    · subst hxy
      have hself : rest.filter (fun z => ¬ z = y) = rest := by
        rw [List.filter_eq_self]
        intro a ha
        simp only [decide_eq_true_eq]
        exact fun hc => hy (hc ▸ ha)
      rw [List.filter_cons_of_neg (by simp), hself, List.length_cons]
      omega
    · have hxrest : x ∈ rest := by
        rcases List.mem_cons.mp hx with h | h
        · exact absurd h.symm hxy
        · exact h
      have hpos : 0 < rest.length := List.length_pos.mpr (List.ne_nil_of_mem hxrest)
      rw [List.filter_cons_of_pos (by simpa using hxy)]
      rw [List.length_cons, ih hrest hxrest, List.length_cons]
      omega

/-- Membership in the rebuilt edge list: exactly the old edges not incident
on the removed vertex. -/
theorem mem_remEdges_iff {g : Digraph VertexInfo EdgeInfo} (hwf : WF g) (vertex : Int)
    (pr : Int × Int) :
    pr ∈ remEdges g.m vertex (g.v.filter (fun ve => ¬ ve = vertex)) ↔
      (pr ∈ g.e ∧ ¬ pr.1 = vertex ∧ ¬ pr.2 = vertex) := by
  have hwf' := hwf
  obtain ⟨hvnd, hknd, hkv, hsome, hft, hrnd, hend, hehas, hadj, hvc, hec⟩ := hwf'
  constructor
  · intro h
    rw [remEdges, List.mem_flatMap] at h
    obtain ⟨n, hn, hpr⟩ := h
    rcases hm : mapFind g.m n with _ | rn
    · rw [hm] at hpr
      simp at hpr
    · rw [hm] at hpr
      rw [List.mem_map] at hpr
      obtain ⟨ed, hed, hpe⟩ := hpr
      rw [List.mem_filter] at hed
      obtain ⟨hed, hkeep⟩ := hed
      have hk := of_decide_eq_true hkeep
      have hmem : (n, rn) ∈ g.m := mapFind_mem hm
      have hine : (n, ed.toVertex) ∈ g.e := hadj (n, rn) hmem ed hed
      have hfrom : ed.fromVertex = n := (hft (n, rn) hmem ed hed).1
      subst hpe
      exact ⟨by rwa [hfrom], by simpa [hfrom] using hk.1, hk.2⟩
  · rintro ⟨hin, h1, h2⟩
    have hhe : hasEdge g pr.1 pr.2 = true := (mem_e_iff_hasEdge hwf pr.1 pr.2).mp
      (by rwa [show ((pr.1, pr.2) : Int × Int) = pr from rfl])
    unfold hasEdge at hhe
    rcases hm : mapFind g.m pr.1 with _ | rn
    · rw [hm] at hhe
      simp at hhe
    · rw [hm] at hhe
      obtain ⟨ed, hed, hbeq⟩ := List.any_eq_true.mp hhe
      have hto : ed.toVertex = pr.2 := eq_of_beq hbeq
      have hmem : (pr.1, rn) ∈ g.m := mapFind_mem hm
      have hfrom : ed.fromVertex = pr.1 := (hft (pr.1, rn) hmem ed hed).1
      rw [remEdges, List.mem_flatMap]
      refine ⟨pr.1, ?_, ?_⟩
      · rw [List.mem_filter]
        exact ⟨hkv (pr.1, rn) hmem, by simpa using h1⟩
      · rw [hm, List.mem_map]
        refine ⟨ed, ?_, ?_⟩
        · rw [List.mem_filter]
          refine ⟨hed, decide_eq_true ?_⟩
          constructor
          · rw [hfrom]
            exact h1
          · rw [hto]
            exact h2
        · rw [hfrom, hto]

/-- The rebuilt edge list contains no duplicate pairs. -/
theorem remEdges_nodup (m_ : List (Int × DigraphVertex VertexInfo EdgeInfo)) (vertex : Int) :
    ∀ ns : List Int, ns.Nodup →
    (∀ n ∈ ns, ∀ rn, mapFind m_ n = some rn → ∀ ed ∈ rn.edges, ed.fromVertex = n) →
    (∀ n ∈ ns, ∀ rn, mapFind m_ n = some rn → (rn.edges.map DigraphEdge.toVertex).Nodup) →
    (remEdges m_ vertex ns).Nodup := by
  intro ns
  induction ns with
  | nil =>
    intro _ _ _
    simp [remEdges]
  | cons n rest ih =>
    intro hnd hfrom hrnd
    rcases List.nodup_cons.mp hnd with ⟨hn, hrest⟩
    have hrem : remEdges m_ vertex (n :: rest) =
        (match mapFind m_ n with
         | none => []
         | some rn => (rn.edges.filter (keepEdge vertex)).map
             (fun ed => (ed.fromVertex, ed.toVertex))) ++ remEdges m_ vertex rest := by
      simp [remEdges]
    rw [hrem]
    have htail : (remEdges m_ vertex rest).Nodup :=
      ih hrest (fun y hy => hfrom y (List.mem_cons_of_mem _ hy))
        (fun y hy => hrnd y (List.mem_cons_of_mem _ hy))
    rcases hm : mapFind m_ n with _ | rn
    · simpa using htail
    · rw [List.nodup_append]
      refine ⟨?_, htail, ?_⟩
      · have hmapnd : ((rn.edges.filter (keepEdge vertex)).map
            DigraphEdge.toVertex).Nodup :=
          (hrnd n (List.mem_cons_self _ _) rn hm).sublist
            (List.Sublist.map _ (List.filter_sublist _))
        have : (((rn.edges.filter (keepEdge vertex)).map
            (fun ed => (ed.fromVertex, ed.toVertex))).map Prod.snd).Nodup := by
          rw [List.map_map]
          exact hmapnd
        exact this.of_map Prod.snd
      · intro pr hpr1 hpr2
        rw [List.mem_map] at hpr1
        obtain ⟨ed, hed, hpe⟩ := hpr1
        rw [List.mem_filter] at hed
        have hf1 : pr.1 = n := by
          rw [← hpe]
          exact hfrom n (List.mem_cons_self _ _) rn hm ed hed.1
        rw [remEdges, List.mem_flatMap] at hpr2
        obtain ⟨y, hy, hsec⟩ := hpr2
        rcases hmy : mapFind m_ y with _ | ry
        · rw [hmy] at hsec
          simp at hsec
        · rw [hmy] at hsec
          rw [List.mem_map] at hsec
          obtain ⟨ed2, hed2, hpe2⟩ := hsec
          rw [List.mem_filter] at hed2
          have hf2 : pr.1 = y := by
            rw [← hpe2]
            exact hfrom y (List.mem_cons_of_mem _ hy) ry hmy ed2 hed2.1
          have hny : n = y := by rw [← hf1, hf2]
          exact hn (hny ▸ hy)

-- ----- C7: removeVertex removes exactly the incident edges -----

/-- C7: for a present vertex, `removeVertex(v)` returns normally, decrements
`vertexCount()` by exactly one, decrements `edgeCount()` by exactly the
number of edges incident on `v` (as source or destination), and every edge
not incident on `v` survives with its payload. -/
theorem removeVertex_removes_incident (g : Digraph VertexInfo EdgeInfo) (vertex : Int)
    (hwf : WF g) (hv : vertex ∈ g.v) :
    (removeVertex g vertex).2 = none ∧
    vertexCount (removeVertex g vertex).1 = vertexCount g - 1 ∧
    edgeCount (removeVertex g vertex).1 = edgeCount g - (incidentCount g vertex : Int) ∧
    (∀ a b einfo, ¬ a = vertex → ¬ b = vertex → edgeInfo g a b = .ok einfo →
      edgeInfo (removeVertex g vertex).1 a b = .ok einfo) := by
  obtain ⟨g', hrun, hgv, hgvc, hgkeys, hge, hgec, hrecs, hnone⟩ := removeVertex_spec g vertex hwf
  have hwf' := hwf
  obtain ⟨hvnd, hknd, hkv, hsome, hft, hrnd, hend, hehas, hadj, hvc, hec⟩ := hwf'
  have hfst : (removeVertex g vertex).1 = g' := by rw [hrun]
  have hlenv : (g.v.filter (fun ve => ¬ ve = vertex)).length = g.v.length - 1 :=
    length_filter_ne_of_nodup hvnd hv
  have hvpos : 0 < g.v.length := List.length_pos.mpr (List.ne_nil_of_mem hv)
  -- the rebuilt edge list is a permutation of the non-incident old edges
  have hperm : (remEdges g.m vertex (g.v.filter (fun ve => ¬ ve = vertex))).Perm
      (g.e.filter (fun pr => ¬ (pr.1 = vertex ∨ pr.2 = vertex))) := by
    rw [List.perm_ext_iff_of_nodup]
    · intro pr
      rw [mem_remEdges_iff hwf vertex pr, List.mem_filter]
      simp only [decide_eq_true_eq]
      tauto
    · exact remEdges_nodup g.m vertex _ (hvnd.filter _)
        (fun n hn rn hrn ed hed => (hft (n, rn) (mapFind_mem hrn) ed hed).1)
        (fun n hn rn hrn => hrnd (n, rn) (mapFind_mem hrn))
    · exact hend.filter _
  have hsplit : g.e.length = (g.e.filter (fun pr => pr.1 = vertex ∨ pr.2 = vertex)).length +
      (g.e.filter (fun pr => ¬ (pr.1 = vertex ∨ pr.2 = vertex))).length := by
    have := List.length_eq_length_filter_add
      (l := g.e) (fun (pr : Int × Int) => decide (pr.1 = vertex ∨ pr.2 = vertex))
    simpa using this
  refine ⟨by rw [hrun], ?_, ?_, ?_⟩
  · rw [hfst]
    unfold vertexCount
    rw [hgvc, hvc, hlenv]
    push_cast [Nat.cast_sub (by omega : 1 ≤ g.v.length)]
    ring
  · rw [hfst]
    unfold edgeCount incidentCount
    rw [hgec, hec, hperm.length_eq]
    have hle : (g.e.filter (fun pr => pr.1 = vertex ∨ pr.2 = vertex)).length ≤ g.e.length :=
      List.length_filter_le _ _
    omega
  · intro a b einfo ha hb hok
    unfold edgeInfo at hok
    rcases hva : VertexExist g a with _ | ea
    · rcases hvb : VertexExist g b with _ | eb
      · rw [hva, hvb] at hok
        dsimp only at hok
        rcases hma : mapFind g.m a with _ | ra
        · rw [hma] at hok
          simp at hok
        · rw [hma] at hok
          dsimp only at hok
          rcases hfd : ra.edges.find? (fun it => it.toVertex == b) with _ | it
          · rw [hfd] at hok
            simp at hok
          · rw [hfd] at hok
            dsimp only at hok
            simp only [Except.ok.injEq] at hok
            have hain : a ∈ g.v := by
              by_contra hc
              simp [VertexExist, hc] at hva
            have hbin : b ∈ g.v := by
              by_contra hc
              simp [VertexExist, hc] at hvb
            have hav_ : a ∈ g.v.filter (fun ve => ¬ ve = vertex) := by
              rw [List.mem_filter]
              exact ⟨hain, by simpa using ha⟩
            have hbv_ : b ∈ g.v.filter (fun ve => ¬ ve = vertex) := by
              rw [List.mem_filter]
              exact ⟨hbin, by simpa using hb⟩
            have hrec := hrecs a hav_ ra hma
            have hfd' : ((ra.edges.filter (keepEdge vertex)).find?
                (fun it => it.toVertex == b)) = some it := by
              rw [find?_filter_eq]
              · exact hfd
              · intro x hx hpx
                have hxf : x.fromVertex = a := (hft (a, ra) (mapFind_mem hma) x hx).1
                refine decide_eq_true ⟨?_, ?_⟩
                · rw [hxf]
                  exact ha
                · rw [eq_of_beq hpx]
                  exact hb
            have hag' : a ∈ g'.v := by
              rw [hgv]
              exact hav_
            have hbg' : b ∈ g'.v := by
              rw [hgv]
              exact hbv_
            rw [hfst]
            unfold edgeInfo
            rw [show VertexExist g' a = none from by simp [VertexExist, hag']]
            rw [show VertexExist g' b = none from by simp [VertexExist, hbg']]
            rw [hrec]
            dsimp only
            rw [hfd']
            dsimp only
            rw [hok]
      · rw [hva, hvb] at hok
        simp at hok
    · rw [hva] at hok
      simp at hok

/-- Witness for C7 on the example graph: removing vertex 3 from `G3` drops
the two incident edges (1→3 and 3→2) and keeps 1→2 with its payload. -/
theorem removeVertex_removes_incident_witness :
    (removeVertex G3 3).2 = none ∧
    vertexCount (removeVertex G3 3).1 = vertexCount G3 - 1 ∧
    edgeCount (removeVertex G3 3).1 = edgeCount G3 - (incidentCount G3 3 : Int) ∧
    (∀ a b einfo, ¬ a = 3 → ¬ b = 3 → edgeInfo G3 a b = .ok einfo →
      edgeInfo (removeVertex G3 3).1 a b = .ok einfo) :=
  removeVertex_removes_incident G3 3 (by decide) (by decide)

theorem mem_mapAssign_iff {α : Type} {m : List (Int × α)} (hnd : (m.map Prod.fst).Nodup)
    (k : Int) (val : α) (p : Int × α) :
    p ∈ mapAssign m k val ↔ ((p ∈ m ∧ ¬ p.1 = k) ∨ p = (k, val)) := by
  induction m with
  | nil =>
    simp [mapAssign]
  | cons q rest ih =>
    rw [List.map_cons] at hnd
    rcases List.nodup_cons.mp hnd with ⟨hq, hrest⟩
    by_cases hqk : q.1 = k
    · subst hqk
      rw [show mapAssign (q :: rest) q.1 val = (q.1, val) :: rest from by
        simp [mapAssign]]
      simp only [List.mem_cons]
      constructor
      · rintro (h | h)
        · right
          exact h
        · left
          refine ⟨Or.inr h, ?_⟩
          intro hc
          exact hq (by rw [← hc]; exact List.mem_map_of_mem Prod.fst h)
      · rintro (⟨hin | hin, hne⟩ | h)
        · exact absurd rfl (by rw [hin] at hne; exact hne)
        · right
          exact hin
        · left
          exact h
    · rw [show mapAssign (q :: rest) k val = q :: mapAssign rest k val from by
        simp [mapAssign, hqk]]
      simp only [List.mem_cons]
      rw [ih hrest]
      constructor
      · rintro (h | h)
        · subst h
          exact Or.inl ⟨Or.inl rfl, hqk⟩
        · rcases h with ⟨hin, hne⟩ | h
          · exact Or.inl ⟨Or.inr hin, hne⟩
          · exact Or.inr h
      · rintro (⟨hin | hin, hne⟩ | h)
        · exact Or.inl hin
        · exact Or.inr (Or.inl ⟨hin, hne⟩)
        · exact Or.inr (Or.inr h)

theorem mapFind_eq_of_mem_nodup {α : Type} {m : List (Int × α)}
    (hnd : (m.map Prod.fst).Nodup) {p : Int × α} (hp : p ∈ m) :
    mapFind m p.1 = some p.2 := by
  induction m with
  | nil => simp at hp
  | cons q rest ih =>
    rw [List.map_cons] at hnd
    rcases List.nodup_cons.mp hnd with ⟨hq, hrest⟩
    rcases List.mem_cons.mp hp with h | h
    · subst h
      simp [mapFind]
    · have hne : ¬ q.1 = p.1 := by
        intro hc
        exact hq (by rw [hc]; exact List.mem_map_of_mem Prod.fst h)
      rw [mapFind, if_neg hne]
      exact ih hrest h

/-- `addVertex` preserves the representation invariant. -/
theorem WF_addVertex (g : Digraph VertexInfo EdgeInfo) (hwf : WF g) (x : Int)
    (vinfo : VertexInfo) : WF (addVertex g x vinfo).1 := by
  obtain ⟨hvnd, hknd, hkv, hsome, hft, hrnd, hend, hehas, hadj, hvc, hec⟩ := hwf
  unfold addVertex
  rcases hf : findVertexNotExist g x with _ | err
  case some =>
    exact ⟨hvnd, hknd, hkv, hsome, hft, hrnd, hend, hehas, hadj, hvc, hec⟩
  case none =>
  have hm : mapFind g.m x = none := by
    unfold findVertexNotExist at hf
    rcases hx : mapFind g.m x with _ | r
    · rfl
    · rw [hx] at hf
      simp at hf
  have hxkeys : x ∉ g.m.map Prod.fst := mapFind_eq_none_iff.mp hm
  have hxv : x ∉ g.v := by
    intro hc
    have := hsome x hc
    rw [hm] at this
    simp at this
  have hmr : mapAssign g.m x (⟨vinfo, []⟩ : DigraphVertex VertexInfo EdgeInfo) =
      g.m ++ [(x, ⟨vinfo, []⟩)] := mapAssign_of_not_mem _ _ _ hxkeys
  dsimp only
  rw [hmr]
  refine ⟨?_, ?_, ?_, ?_, ?_, ?_, hend, ?_, ?_, ?_, hec⟩
  · rw [List.nodup_append]
    exact ⟨hvnd, List.nodup_singleton x, by simpa using hxv⟩
  · rw [List.map_append, List.nodup_append]
    exact ⟨hknd, by simp, by simpa using hxkeys⟩
  · intro p hp
    rcases List.mem_append.mp hp with h | h
    · exact List.mem_append_left _ (hkv p h)
    · simp at h
      subst h
      exact List.mem_append_right _ (by simp)
  · intro y hy
    rcases List.mem_append.mp hy with h | h
    · obtain ⟨r, hr⟩ : ∃ r, mapFind g.m y = some r := by
        have := hsome y h
        rcases hx : mapFind g.m y with _ | r
        · rw [hx] at this
          simp at this
        · exact ⟨r, rfl⟩
      rw [mapFind_append_left _ _ hr]
      rfl
    · simp at h
      subst h
      rw [mapFind_append_right _ _ hm]
      simp [mapFind]
  · intro p hp ed hed
    rcases List.mem_append.mp hp with h | h
    · exact ⟨(hft p h ed hed).1, List.mem_append_left _ (hft p h ed hed).2⟩
    · simp at h
      subst h
      simp at hed
  · intro p hp
    rcases List.mem_append.mp hp with h | h
    · exact hrnd p h
    · simp at h
      subst h
      simp
  · intro pr hpr
    have hh := hehas pr hpr
    unfold hasEdge at hh ⊢
    rcases hx : mapFind g.m pr.1 with _ | r
    · rw [hx] at hh
      simp at hh
    · rw [hx] at hh
      rw [mapFind_append_left _ _ hx]
      exact hh
  · intro p hp ed hed
    rcases List.mem_append.mp hp with h | h
    · exact hadj p h ed hed
    · simp at h
      subst h
      simp at hed
  · rw [hvc]
    push_cast
    simp

theorem findVertex_ok {g : Digraph VertexInfo EdgeInfo} {x : Int}
    {r : DigraphVertex VertexInfo EdgeInfo} (h : findVertex g x = .ok r) :
    mapFind g.m x = some r := by
  unfold findVertex at h
  rcases hx : mapFind g.m x with _ | s
  · rw [hx] at h
    simp at h
  · rw [hx] at h
    simp only [Except.ok.injEq] at h
    rw [h]

theorem hasEdge_iff {g : Digraph VertexInfo EdgeInfo} {a b : Int} :
    hasEdge g a b = true ↔
      ∃ r, mapFind g.m a = some r ∧ ∃ ed ∈ r.edges, ed.toVertex = b := by
  unfold hasEdge
  rcases hm : mapFind g.m a with _ | r
  · simp
  · simp [List.any_eq_true]

/-- `addEdge` preserves the representation invariant. -/
theorem WF_addEdge (g : Digraph VertexInfo EdgeInfo) (hwf : WF g) (a b : Int)
    (einfo : EdgeInfo) : WF (addEdge g a b einfo).1 := by
  obtain ⟨hvnd, hknd, hkv, hsome, hft, hrnd, hend, hehas, hadj, hvc, hec⟩ := hwf
  have hwfg : WF g := ⟨hvnd, hknd, hkv, hsome, hft, hrnd, hend, hehas, hadj, hvc, hec⟩
  unfold addEdge
  rcases hfa : findVertex g a with ea | i
  case error => exact hwfg
  case ok =>
  rcases hfb : findVertex g b with eb | j
  case error => exact hwfg
  case ok =>
  dsimp only
  by_cases hany : (i.edges.any fun it => it.toVertex == b) = true
  · rw [if_pos hany]
    exact hwfg
  · rw [if_neg hany]
    have hma : mapFind g.m a = some i := findVertex_ok hfa
    have hmb : mapFind g.m b = some j := findVertex_ok hfb
    have hain : a ∈ g.v := hkv (a, i) (mapFind_mem hma)
    have hbin : b ∈ g.v := hkv (b, j) (mapFind_mem hmb)
    have hakeys : a ∈ g.m.map Prod.fst := mapFind_isSome_iff.mp (by simp [hma])
    have hnotoV : ∀ ed ∈ i.edges, ¬ ed.toVertex = b := by
      intro ed hed
      have hfalse : (i.edges.any fun it => it.toVertex == b) = false :=
        (Bool.not_eq_true _).mp hany
      have := List.any_eq_false.mp hfalse ed hed
      simpa using this
    have hnotin : (a, b) ∉ g.e := by
      intro hc
      obtain ⟨r, hr, ed, hed, hto⟩ := hasEdge_iff.mp (hehas (a, b) hc)
      rw [hma] at hr
      injection hr with hr
      subst hr
      exact hnotoV ed hed hto
    have hmemiff := mem_mapAssign_iff hknd a
      (⟨i.vinfo, i.edges ++ [⟨a, b, einfo⟩]⟩ : DigraphVertex VertexInfo EdgeInfo)
    refine ⟨hvnd, ?_, ?_, ?_, ?_, ?_, ?_, ?_, ?_, hvc, ?_⟩
    · rw [mapAssign_keys_of_mem _ _ _ hakeys]
      exact hknd
    · intro p hp
      rcases (hmemiff p).mp hp with ⟨hin, -⟩ | hnew
      · exact hkv p hin
      · rw [hnew]
        exact hain
    · intro y hy
      by_cases hya : y = a
      · subst hya
        rw [mapFind_mapAssign_self]
        rfl
      · rw [mapFind_mapAssign_ne _ _ _ _ hya]
        exact hsome y hy
    · intro p hp ed hed
      rcases (hmemiff p).mp hp with ⟨hin, -⟩ | hnew
      · exact hft p hin ed hed
      · rw [hnew] at hed ⊢
        dsimp only at hed
        rcases List.mem_append.mp hed with h | h
        · exact ⟨(hft (a, i) (mapFind_mem hma) ed h).1,
            (hft (a, i) (mapFind_mem hma) ed h).2⟩
        · simp only [List.mem_singleton] at h
          subst h
          exact ⟨rfl, hbin⟩
    · intro p hp
      rcases (hmemiff p).mp hp with ⟨hin, -⟩ | hnew
      · exact hrnd p hin
      · rw [hnew]
        dsimp only
        rw [List.map_append, List.nodup_append]
        refine ⟨hrnd (a, i) (mapFind_mem hma), by simp, ?_⟩
        intro t ht
        rw [List.mem_map] at ht
        obtain ⟨ed, hed, hte⟩ := ht
        simp only [List.map_cons, List.map_nil, List.mem_singleton]
        intro hc
        subst hc
        exact hnotoV ed hed hte
    · rw [List.nodup_append]
      exact ⟨hend, List.nodup_singleton _, by simpa using hnotin⟩
    · intro pr hpr
      rcases List.mem_append.mp hpr with h | h
      · obtain ⟨r, hr, ed, hed, hto⟩ := hasEdge_iff.mp (hehas pr h)
        rw [hasEdge_iff]
        by_cases hpa : pr.1 = a
        · subst hpa
          rw [hma] at hr
          injection hr with hr
          subst hr
          exact ⟨_, mapFind_mapAssign_self _ _ _, ed, List.mem_append_left _ hed, hto⟩
        · exact ⟨r, by rw [mapFind_mapAssign_ne _ _ _ _ hpa]; exact hr, ed, hed, hto⟩
      · simp only [List.mem_singleton] at h
        subst h
        rw [hasEdge_iff]
        exact ⟨_, mapFind_mapAssign_self _ _ _, ⟨a, b, einfo⟩,
          List.mem_append_right _ (by simp), rfl⟩
    · intro p hp ed hed
      rcases (hmemiff p).mp hp with ⟨hin, -⟩ | hnew
      · exact List.mem_append_left _ (hadj p hin ed hed)
      · rw [hnew] at hed ⊢
        dsimp only at hed ⊢
        rcases List.mem_append.mp hed with h | h
        · exact List.mem_append_left _ (hadj (a, i) (mapFind_mem hma) ed h)
        · simp only [List.mem_singleton] at h
          subst h
          exact List.mem_append_right _ (by simp)
    · rw [hec]
      push_cast
      simp

/-- `removeEdge` preserves the representation invariant. -/
theorem WF_removeEdge (g : Digraph VertexInfo EdgeInfo) (hwf : WF g) (a b : Int) :
    WF (removeEdge g a b).1 := by
  obtain ⟨hvnd, hknd, hkv, hsome, hft, hrnd, hend, hehas, hadj, hvc, hec⟩ := hwf
  have hwfg : WF g := ⟨hvnd, hknd, hkv, hsome, hft, hrnd, hend, hehas, hadj, hvc, hec⟩
  unfold removeEdge
  rcases hei : edgeInfo g a b with e | info
  case error => exact hwfg
  case ok =>
  dsimp only
  rcases hma : mapFind g.m a with _ | r
  case none => exact hwfg
  case some =>
  dsimp only
  have hedok : ∃ ed ∈ r.edges, ed.toVertex = b := by
    unfold edgeInfo at hei
    rcases hva : VertexExist g a with _ | ea
    · rcases hvb : VertexExist g b with _ | eb
      · rw [hva, hvb] at hei
        dsimp only at hei
        rw [hma] at hei
        dsimp only at hei
        rcases hfd : r.edges.find? (fun it => it.toVertex == b) with _ | it
        · rw [hfd] at hei
          simp at hei
        · have := List.find?_some hfd
          exact ⟨it, List.mem_of_find?_eq_some hfd, by simpa using this⟩
      · rw [hva, hvb] at hei
        simp at hei
    · rw [hva] at hei
      simp at hei
  have hin : (a, b) ∈ g.e := by
    rw [mem_e_iff_hasEdge hwfg]
    rw [hasEdge_iff]
    obtain ⟨ed, hed, hto⟩ := hedok
    exact ⟨r, hma, ed, hed, hto⟩
  rw [if_pos hin]
  have hakeys : a ∈ g.m.map Prod.fst := mapFind_isSome_iff.mp (by simp [hma])
  have hmemiff := mem_mapAssign_iff hknd a
    (⟨r.vinfo, r.edges.filter (fun i => ¬ i.toVertex = b)⟩ : DigraphVertex VertexInfo EdgeInfo)
  have hmemer : ∀ pr : Int × Int, pr ∈ g.e.erase (a, b) ↔ pr ≠ (a, b) ∧ pr ∈ g.e :=
    fun pr => hend.mem_erase_iff
  refine ⟨hvnd, ?_, ?_, ?_, ?_, ?_, ?_, ?_, ?_, hvc, ?_⟩
  · rw [mapAssign_keys_of_mem _ _ _ hakeys]
    exact hknd
  · intro p hp
    rcases (hmemiff p).mp hp with ⟨hpin, -⟩ | hnew
    · exact hkv p hpin
    · rw [hnew]
      exact hkv (a, r) (mapFind_mem hma)
  · intro y hy
    by_cases hya : y = a
    · subst hya
      rw [mapFind_mapAssign_self]
      rfl
    · rw [mapFind_mapAssign_ne _ _ _ _ hya]
      exact hsome y hy
  · intro p hp ed hed
    rcases (hmemiff p).mp hp with ⟨hpin, -⟩ | hnew
    · exact hft p hpin ed hed
    · rw [hnew] at hed ⊢
      dsimp only at hed
      have := List.mem_of_mem_filter hed
      exact ⟨(hft (a, r) (mapFind_mem hma) ed this).1,
        (hft (a, r) (mapFind_mem hma) ed this).2⟩
  · intro p hp
    rcases (hmemiff p).mp hp with ⟨hpin, -⟩ | hnew
    · exact hrnd p hpin
    · rw [hnew]
      dsimp only
      exact (hrnd (a, r) (mapFind_mem hma)).sublist
        (List.Sublist.map _ (List.filter_sublist _))
  · exact hend.erase _
  · intro pr hpr
    rcases (hmemer pr).mp hpr with ⟨hne, hpin⟩
    obtain ⟨s, hs, ed, hed, hto⟩ := hasEdge_iff.mp (hehas pr hpin)
    rw [hasEdge_iff]
    by_cases hpa : pr.1 = a
    · rw [hpa] at hs
      rw [hma] at hs
      injection hs with hs
      subst hs
      have hprb : ¬ pr.2 = b := by
        intro hc
        exact hne (by rw [← hpa, ← hc])
      refine ⟨_, by rw [hpa]; exact mapFind_mapAssign_self _ _ _, ed, ?_, hto⟩
      rw [List.mem_filter]
      refine ⟨hed, ?_⟩
      simp only [decide_eq_true_eq]
      rw [hto]
      exact hprb
    · exact ⟨s, by rw [mapFind_mapAssign_ne _ _ _ _ hpa]; exact hs, ed, hed, hto⟩
  · intro p hp ed hed
    rcases (hmemiff p).mp hp with ⟨hpin, hpne⟩ | hnew
    · rw [hmemer]
      refine ⟨?_, hadj p hpin ed hed⟩
      intro hc
      exact hpne (by rw [show p.1 = (p.1, ed.toVertex).1 from rfl, hc])
    · rw [hnew] at hed ⊢
      dsimp only at hed ⊢
      rw [List.mem_filter] at hed
      obtain ⟨hed, hkeepb⟩ := hed
      rw [hmemer]
      refine ⟨?_, hadj (a, r) (mapFind_mem hma) ed hed⟩
      intro hc
      have : ed.toVertex = b := by
        have := congrArg Prod.snd hc
        simpa using this
      simp only [decide_eq_true_eq] at hkeepb
      exact hkeepb this
  · rw [hec]
    have hlen : (g.e.erase (a, b)).length = g.e.length - 1 :=
      List.length_erase_of_mem hin
    have hpos : 0 < g.e.length := List.length_pos.mpr (List.ne_nil_of_mem hin)
    rw [hlen]
    push_cast [Nat.cast_sub (by omega : 1 ≤ g.e.length)]
    ring

/-- `removeVertex` preserves the representation invariant (for any argument,
present or not, since it never throws). -/
theorem WF_removeVertex (g : Digraph VertexInfo EdgeInfo) (hwf : WF g) (vertex : Int) :
    WF (removeVertex g vertex).1 := by
  obtain ⟨g', hrun, hgv, hgvc, hgkeys, hge, hgec, hrecs, hnone⟩ := removeVertex_spec g vertex hwf
  have hwf' := hwf
  obtain ⟨hvnd, hknd, hkv, hsome, hft, hrnd, hend, hehas, hadj, hvc, hec⟩ := hwf'
  rw [hrun]
  dsimp only
  have hvnd_ : (g.v.filter (fun ve => ¬ ve = vertex)).Nodup := hvnd.filter _
  have hknd' : (g'.m.map Prod.fst).Nodup := by
    rw [hgkeys]
    exact hvnd_
  have hfind : ∀ y ∈ g.v.filter (fun ve => ¬ ve = vertex),
      ∃ rn, mapFind g.m y = some rn := by
    intro y hy
    have := hsome y (List.mem_of_mem_filter hy)
    rcases hx : mapFind g.m y with _ | rn
    · rw [hx] at this
      simp at this
    · exact ⟨rn, rfl⟩
  have hpmem : ∀ p ∈ g'.m, p.1 ∈ g.v.filter (fun ve => ¬ ve = vertex) ∧
      ∃ rn, mapFind g.m p.1 = some rn ∧
        p.2 = ⟨rn.vinfo, rn.edges.filter (keepEdge vertex)⟩ := by
    intro p hp
    have hk : p.1 ∈ g.v.filter (fun ve => ¬ ve = vertex) := by
      rw [← hgkeys]
      exact List.mem_map_of_mem _ hp
    obtain ⟨rn, hrn⟩ := hfind p.1 hk
    have h1 := hrecs p.1 hk rn hrn
    have h2 : mapFind g'.m p.1 = some p.2 := mapFind_eq_of_mem_nodup hknd' hp
    rw [h1] at h2
    injection h2 with h2
    exact ⟨hk, rn, hrn, h2.symm⟩
  refine ⟨?_, hknd', ?_, ?_, ?_, ?_, ?_, ?_, ?_, ?_, ?_⟩
  · rw [hgv]
    exact hvnd_
  · intro p hp
    rw [hgv]
    exact (hpmem p hp).1
  · intro y hy
    rw [hgv] at hy
    obtain ⟨rn, hrn⟩ := hfind y hy
    rw [hrecs y hy rn hrn]
    rfl
  · intro p hp ed hed
    obtain ⟨hk, rn, hrn, hrec⟩ := hpmem p hp
    rw [hrec] at hed
    dsimp only at hed
    rw [List.mem_filter] at hed
    obtain ⟨hed, hkeep⟩ := hed
    have hk2 := of_decide_eq_true hkeep
    have horig := hft (p.1, rn) (mapFind_mem hrn) ed hed
    refine ⟨horig.1, ?_⟩
    rw [hgv, List.mem_filter]
    exact ⟨horig.2, by simpa using hk2.2⟩
  · intro p hp
    obtain ⟨hk, rn, hrn, hrec⟩ := hpmem p hp
    rw [hrec]
    dsimp only
    exact (hrnd (p.1, rn) (mapFind_mem hrn)).sublist
      (List.Sublist.map _ (List.filter_sublist _))
  · rw [hge]
    exact remEdges_nodup g.m vertex _ hvnd_
      (fun n hn rn hrn ed hed => (hft (n, rn) (mapFind_mem hrn) ed hed).1)
      (fun n hn rn hrn => hrnd (n, rn) (mapFind_mem hrn))
  · intro pr hpr
    rw [hge] at hpr
    rw [mem_remEdges_iff hwf vertex pr] at hpr
    obtain ⟨hine, h1, h2⟩ := hpr
    obtain ⟨r, hr, ed, hed, hto⟩ := hasEdge_iff.mp (hehas pr hine)
    have hfk : pr.1 ∈ g.v.filter (fun ve => ¬ ve = vertex) := by
      rw [List.mem_filter]
      exact ⟨hkv (pr.1, r) (mapFind_mem hr), by simpa using h1⟩
    rw [hasEdge_iff]
    refine ⟨_, hrecs pr.1 hfk r hr, ed, ?_, hto⟩
    rw [List.mem_filter]
    refine ⟨hed, decide_eq_true ⟨?_, ?_⟩⟩
    · rw [(hft (pr.1, r) (mapFind_mem hr) ed hed).1]
      exact h1
    · rw [hto]
      exact h2
  · intro p hp ed hed
    obtain ⟨hk, rn, hrn, hrec⟩ := hpmem p hp
    rw [hrec] at hed
    dsimp only at hed
    rw [List.mem_filter] at hed
    obtain ⟨hed, hkeep⟩ := hed
    have hk2 := of_decide_eq_true hkeep
    rw [hge, mem_remEdges_iff hwf vertex _]
    refine ⟨hadj (p.1, rn) (mapFind_mem hrn) ed hed, ?_, ?_⟩
    · rw [List.mem_filter] at hk
      simpa using hk.2
    · simpa using hk2.2
  · rw [hgvc, hgv]
  · rw [hgec, hge]

theorem allPairs_nodup_of (m : List (Int × DigraphVertex VertexInfo EdgeInfo)) :
    (m.map Prod.fst).Nodup →
    (∀ p ∈ m, ∀ ed ∈ p.2.edges, ed.fromVertex = p.1) →
    (∀ p ∈ m, (p.2.edges.map DigraphEdge.toVertex).Nodup) →
    (m.flatMap (fun p => p.2.edges.map (fun ed => (ed.fromVertex, ed.toVertex)))).Nodup := by
  induction m with
  | nil =>
    intro _ _ _
    simp
  | cons q rest ih =>
    intro hknd hfrom hrnd
    rw [List.map_cons] at hknd
    rcases List.nodup_cons.mp hknd with ⟨hq, hkrest⟩
    rw [List.flatMap_cons, List.nodup_append]
    refine ⟨?_, ih hkrest (fun p hp => hfrom p (List.mem_cons_of_mem _ hp))
      (fun p hp => hrnd p (List.mem_cons_of_mem _ hp)), ?_⟩
    · have hsnd : ((q.2.edges.map (fun ed => (ed.fromVertex, ed.toVertex))).map
          Prod.snd).Nodup := by
        rw [List.map_map]
        exact hrnd q (List.mem_cons_self _ _)
      exact hsnd.of_map Prod.snd
    · intro pr hpr1 hpr2
      rw [List.mem_map] at hpr1
      obtain ⟨ed, hed, hpe⟩ := hpr1
      have hf1 : pr.1 = q.1 := by
        rw [← hpe]
        exact hfrom q (List.mem_cons_self _ _) ed hed
      rw [List.mem_flatMap] at hpr2
      obtain ⟨p, hp, hsec⟩ := hpr2
      rw [List.mem_map] at hsec
      obtain ⟨ed2, hed2, hpe2⟩ := hsec
      have hf2 : pr.1 = p.1 := by
        rw [← hpe2]
        exact hfrom p (List.mem_cons_of_mem _ hp) ed2 hed2
      refine hq ?_
      have hqp : q.1 = p.1 := by rw [← hf1, hf2]
      rw [hqp]
      exact List.mem_map_of_mem Prod.fst hp

theorem mem_allPairs_iff {g : Digraph VertexInfo EdgeInfo} (hwf : WF g) (pr : Int × Int) :
    pr ∈ allPairs g ↔ pr ∈ g.e := by
  have hwf' := hwf
  obtain ⟨hvnd, hknd, hkv, hsome, hft, hrnd, hend, hehas, hadj, hvc, hec⟩ := hwf'
  rw [allPairs, List.mem_flatMap]
  constructor
  · rintro ⟨p, hp, hsec⟩
    rw [List.mem_map] at hsec
    obtain ⟨ed, hed, hpe⟩ := hsec
    have := hadj p hp ed hed
    rwa [← hpe, (hft p hp ed hed).1]
  · intro h
    obtain ⟨r, hr, ed, hed, hto⟩ := hasEdge_iff.mp (hehas pr h)
    refine ⟨(pr.1, r), mapFind_mem hr, ?_⟩
    rw [List.mem_map]
    exact ⟨ed, hed, by rw [(hft (pr.1, r) (mapFind_mem hr) ed hed).1, hto]⟩

/-- A well-formed graph satisfies the spec's three structural invariants. -/
theorem WF_implies_Inv (g : Digraph VertexInfo EdgeInfo) (hwf : WF g) :
    Inv1 g ∧ Inv2 g ∧ Inv3 g := by
  have hwf' := hwf
  obtain ⟨hvnd, hknd, hkv, hsome, hft, hrnd, hend, hehas, hadj, hvc, hec⟩ := hwf'
  refine ⟨?_, ?_, ?_, ?_⟩
  · intro p hp ed hed
    exact ⟨by rw [(hft p hp ed hed).1]; exact hkv p hp, (hft p hp ed hed).2⟩
  · exact allPairs_nodup_of g.m hknd (fun p hp ed hed => (hft p hp ed hed).1) hrnd
  · rw [hvnd.dedup, hvc]
  · have hnd1 : (allPairs g).Nodup :=
      allPairs_nodup_of g.m hknd (fun p hp ed hed => (hft p hp ed hed).1) hrnd
    have hperm : (allPairs g).Perm g.e := by
      rw [List.perm_ext_iff_of_nodup hnd1 hend]
      exact mem_allPairs_iff hwf
    have hlen : (allPairs g).length = sumOutdeg g := by
      rw [allPairs, List.length_flatMap, sumOutdeg]
      have hfun : (List.length ∘ fun p : Int × DigraphVertex VertexInfo EdgeInfo =>
          p.2.edges.map (fun ed => (ed.fromVertex, ed.toVertex))) =
          fun p => p.2.edges.length := by
        funext p
        simp
      rw [hfun]
    rw [hec, ← hperm.length_eq, hlen]

-- ----- C6: the structural invariants hold after every operation -----

/-- C6: starting from a well-formed graph, every mutating public operation —
whether it succeeds or throws — leaves a graph satisfying the three spec
invariants: edge endpoints present, no duplicate ordered pair, and the two
counts consistent with the stored structure.  (The query operations do not
mutate at all.) -/
theorem public_ops_preserve_invariants (g : Digraph VertexInfo EdgeInfo) (hwf : WF g) :
    (∀ x vinfo, Inv1 (addVertex g x vinfo).1 ∧ Inv2 (addVertex g x vinfo).1 ∧
      Inv3 (addVertex g x vinfo).1) ∧
    (∀ a b einfo, Inv1 (addEdge g a b einfo).1 ∧ Inv2 (addEdge g a b einfo).1 ∧
      Inv3 (addEdge g a b einfo).1) ∧
    (∀ x, Inv1 (removeVertex g x).1 ∧ Inv2 (removeVertex g x).1 ∧
      Inv3 (removeVertex g x).1) ∧
    (∀ a b, Inv1 (removeEdge g a b).1 ∧ Inv2 (removeEdge g a b).1 ∧
      Inv3 (removeEdge g a b).1) := by
  refine ⟨?_, ?_, ?_, ?_⟩
  · intro x vinfo
    exact WF_implies_Inv _ (WF_addVertex g hwf x vinfo)
  · intro a b einfo
    exact WF_implies_Inv _ (WF_addEdge g hwf a b einfo)
  · intro x
    exact WF_implies_Inv _ (WF_removeVertex g hwf x)
  · intro a b
    exact WF_implies_Inv _ (WF_removeEdge g hwf a b)

/-- Witness for C6 at concrete inputs on the example graph `G3`, covering a
successful and a failing call of each mutator. -/
theorem public_ops_preserve_invariants_witness :
    (Inv1 (addVertex G3 9 0).1 ∧ Inv2 (addVertex G3 9 0).1 ∧ Inv3 (addVertex G3 9 0).1) ∧
    (Inv1 (addEdge G3 1 2 0).1 ∧ Inv2 (addEdge G3 1 2 0).1 ∧ Inv3 (addEdge G3 1 2 0).1) ∧
    (Inv1 (removeVertex G3 3).1 ∧ Inv2 (removeVertex G3 3).1 ∧ Inv3 (removeVertex G3 3).1) ∧
    (Inv1 (removeEdge G3 1 3).1 ∧ Inv2 (removeEdge G3 1 3).1 ∧ Inv3 (removeEdge G3 1 3).1) :=
  ⟨(public_ops_preserve_invariants G3 (by decide)).1 9 0,
   (public_ops_preserve_invariants G3 (by decide)).2.1 1 2 0,
   (public_ops_preserve_invariants G3 (by decide)).2.2.1 3,
   (public_ops_preserve_invariants G3 (by decide)).2.2.2 1 3⟩

/-- The sweep and its edge loop satisfy their induction statements at every
fuel level. -/
theorem DFTr_correct (g : Digraph VertexInfo EdgeInfo) (hwf : WF g) :
    ∀ fuel, DFTrP g fuel ∧ DFTrQ g fuel := by
  obtain ⟨hvnd, hknd, hkv, hsome, hft, hrnd, hend, hehas, hadj, hvc, hec⟩ := hwf
  intro fuel
  induction fuel with
  | zero =>
    constructor
    · intro root vs hsub hnd hroot hlen
      have := List.length_pos.mpr (List.ne_nil_of_mem hroot)
      omega
    · intro eds vs hsub hnd hlen
      have hvs : vs = [] := List.length_eq_zero.mp (by omega)
      subst hvs
      refine ⟨[], ?_, List.Sublist.refl _, by simp, by simp, by simp⟩
      induction eds with
      | nil => rfl
      | cons ed rest ihe =>
        rw [DFTrEdges]
        rw [if_neg (by simp)]
        exact ihe
  | succ f ih =>
    have hP : DFTrP g (f + 1) := by
      intro root vs hsub hnd hroot hlen
      obtain ⟨r, hr⟩ := Option.isSome_iff_exists.mp (hsome root (hsub root hroot))
      have hnd1 : (vs.erase root).Nodup := hnd.erase _
      have hsub1 : ∀ x ∈ vs.erase root, x ∈ g.v :=
        fun x hx => hsub x (List.mem_of_mem_erase hx)
      have hlen1 : (vs.erase root).length ≤ f := by
        rw [List.length_erase_of_mem hroot]
        have := List.length_pos.mpr (List.ne_nil_of_mem hroot)
        omega
      obtain ⟨vs', hrun, hsl, hsound, hclos, hpost⟩ :=
        ih.2 r.edges (vs.erase root) hsub1 hnd1 hlen1
      have hrootnot1 : root ∉ vs.erase root := by
        intro hc
        exact ((hnd.mem_erase_iff).mp hc).1 rfl
      refine ⟨vs', ?_, hsl.trans (List.erase_sublist _ _), ?_, ?_, ?_⟩
      · simp only [DFTr]
        rw [if_pos hroot, hr]
        exact hrun
      · intro hc
        exact hrootnot1 (hsl.subset hc)
      · intro x hx hnotin
        by_cases hxr : x = root
        · subst hxr
          exact Relation.ReflTransGen.refl
        · have hx1 : x ∈ vs.erase root := (hnd.mem_erase_iff).mpr ⟨hxr, hx⟩
          obtain ⟨ed, hed, hreach⟩ := hsound x hx1 hnotin
          have hstep : stepEdge g root ed.toVertex := by
            show hasEdge g root ed.toVertex = true
            rw [hasEdge_iff]
            exact ⟨r, hr, ed, hed, rfl⟩
          exact Relation.ReflTransGen.head hstep hreach
      · intro u hu hnotin w hw
        by_cases hur : u = root
        · subst hur
          obtain ⟨r', hr', ed, hed, hto⟩ := hasEdge_iff.mp hw
          rw [hr] at hr'
          injection hr' with hr'
          subst hr'
          have := hpost ed hed
          rwa [hto] at this
        · have hu1 : u ∈ vs.erase root := (hnd.mem_erase_iff).mpr ⟨hur, hu⟩
          exact hclos u hu1 hnotin w hw
    have hQ : DFTrQ g (f + 1) := by
      intro eds
      induction eds with
      | nil =>
        intro vs hsub hnd hlen
        refine ⟨vs, rfl, List.Sublist.refl _, ?_, ?_, by simp⟩
        · intro x hx hnot
          exact absurd hx hnot
        · intro u hu hnot
          exact absurd hu hnot
      | cons ed rest ihe =>
        intro vs hsub hnd hlen
        by_cases hmem : ed.toVertex ∈ vs
        · obtain ⟨vs1, hrun1, hsl1, hnot1, hsound1, hclos1⟩ :=
            hP ed.toVertex vs hsub hnd hmem hlen
          obtain ⟨vs2, hrun2, hsl2, hsound2, hclos2, hpost2⟩ :=
            ihe vs1 (fun x hx => hsub x (hsl1.subset hx)) (hnd.sublist hsl1)
              (le_trans hsl1.length_le hlen)
          refine ⟨vs2, ?_, hsl2.trans hsl1, ?_, ?_, ?_⟩
          · rw [DFTrEdges, if_pos hmem, hrun1]
            exact hrun2
          · intro x hx hnot2
            by_cases hx1 : x ∈ vs1
            · obtain ⟨ed', hed', hre⟩ := hsound2 x hx1 hnot2
              exact ⟨ed', List.mem_cons_of_mem _ hed', hre⟩
            · exact ⟨ed, List.mem_cons_self _ _, hsound1 x hx hx1⟩
          · intro u hu hnot2 w hw
            by_cases hu1 : u ∈ vs1
            · exact hclos2 u hu1 hnot2 w hw
            · have hwnot1 := hclos1 u hu hu1 w hw
              intro hc
              exact hwnot1 (hsl2.subset hc)
          · intro ed' hed'
            rcases List.mem_cons.mp hed' with h | h
            · rw [h]
              intro hc
              exact hnot1 (hsl2.subset hc)
            · exact hpost2 ed' h
        · obtain ⟨vs', hrun, hsl, hsound, hclos, hpost⟩ := ihe vs hsub hnd hlen
          refine ⟨vs', ?_, hsl, ?_, hclos, ?_⟩
          · rw [DFTrEdges, if_neg hmem]
            exact hrun
          · intro x hx hnot
            obtain ⟨ed', hed', hre⟩ := hsound x hx hnot
            exact ⟨ed', List.mem_cons_of_mem _ hed', hre⟩
          · intro ed' hed'
            rcases List.mem_cons.mp hed' with h | h
            · rw [h]
              intro hc
              exact hmem (hsl.subset hc)
            · exact hpost ed' h
    exact ⟨hP, hQ⟩

theorem stepEdge_target_mem {g : Digraph VertexInfo EdgeInfo} (hwf : WF g) {a b : Int}
    (h : stepEdge g a b) : b ∈ g.v := by
  obtain ⟨r, hr, ed, hed, hto⟩ := hasEdge_iff.mp h
  obtain ⟨-, -, -, -, hft, -⟩ := hwf
  have := (hft (a, r) (mapFind_mem hr) ed hed).2
  rwa [hto] at this

/-- One root's sweep over a fresh copy of `v` empties it exactly when every
vertex is reachable from that root. -/
theorem DFTr_root_spec (g : Digraph VertexInfo EdgeInfo) (hwf : WF g) (root : Int)
    (hroot : root ∈ g.v) :
    ∃ rest, DFTr g g.v.length root g.v = some rest ∧
      (rest = [] ↔ ∀ x ∈ g.v, Reachable g root x) := by
  obtain ⟨rest, hrun, hsl, hrootnot, hsound, hclos⟩ :=
    (DFTr_correct g hwf g.v.length).1 root g.v (fun x hx => hx) hwf.1 hroot le_rfl
  refine ⟨rest, hrun, ?_, ?_⟩
  · intro hempty x hx
    apply hsound x hx
    rw [hempty]
    simp
  · intro hall
    by_contra hne
    obtain ⟨x, hxrest⟩ := List.exists_mem_of_ne_nil rest hne
    have hkey : ∀ y, Reachable g root y → y ∈ g.v ∧ y ∉ rest := by
      intro y hy
      induction hy with
      | refl => exact ⟨hroot, hrootnot⟩
      | tail h1 h2 ihy =>
        obtain ⟨hbv, hbnot⟩ := ihy
        exact ⟨stepEdge_target_mem hwf h2, hclos _ hbv hbnot _ h2⟩
    exact (hkey x (hall x (hsl.subset hxrest))).2 hxrest

/-- The loop of `isStronglyConnected` answers `some true` exactly when every
listed root reaches every vertex. -/
theorem isSCLoop_eq_true_iff (g : Digraph VertexInfo EdgeInfo) (hwf : WF g) :
    ∀ roots, (∀ r ∈ roots, r ∈ g.v) →
    (isSCLoop g roots = some true ↔ ∀ r ∈ roots, ∀ x ∈ g.v, Reachable g r x) := by
  intro roots
  induction roots with
  | nil =>
    intro _
    simp [isSCLoop]
  | cons root rest ihr =>
    intro hmem
    obtain ⟨rem, hrun, hiff⟩ := DFTr_root_spec g hwf root (hmem root (List.mem_cons_self _ _))
    rw [isSCLoop, hrun]
    dsimp only
    by_cases hempty : rem.length ≠ 0
    · rw [if_pos hempty]
      constructor
      · intro hc
        simp at hc
      · intro hall
        exfalso
        have hnil : rem = [] := hiff.mpr (hall root (List.mem_cons_self _ _))
        rw [hnil] at hempty
        simp at hempty
    · rw [if_neg hempty]
      have hrem : rem = [] := by
        rw [← List.length_eq_zero]
        simpa using hempty
      have hallroot : ∀ x ∈ g.v, Reachable g root x := hiff.mp hrem
      rw [ihr (fun r hr => hmem r (List.mem_cons_of_mem _ hr))]
      constructor
      · intro hrest r hr x hx
        rcases List.mem_cons.mp hr with h | h
        · rw [h]
          exact hallroot x hx
        · exact hrest r h x hx
      · intro hall r hr x hx
        exact hall r (List.mem_cons_of_mem _ hr) x hx

-- ----- C4: isStronglyConnected is mutual reachability -----

/-- C4: `isStronglyConnected()` returns true exactly when every vertex is
reachable from every other vertex via directed paths; in particular it is
true on the empty graph `G0` and on the one-isolated-vertex graph `G1`. -/
theorem isStronglyConnected_iff_reachable (g : Digraph VertexInfo EdgeInfo) (hwf : WF g) :
    (isStronglyConnected g = some true ↔ ∀ a ∈ g.v, ∀ b ∈ g.v, Reachable g a b) ∧
    isStronglyConnected G0 = some true ∧
    isStronglyConnected G1 = some true := by
  refine ⟨?_, by decide, by decide⟩
  unfold isStronglyConnected
  exact isSCLoop_eq_true_iff g hwf g.v (fun r hr => hr)

/-- Witness for C4: the theorem applied to the example graph `G3`. -/
theorem isStronglyConnected_iff_reachable_witness :
    (isStronglyConnected G3 = some true ↔ ∀ a ∈ G3.v, ∀ b ∈ G3.v, Reachable G3 a b) ∧
    isStronglyConnected G0 = some true ∧
    isStronglyConnected G1 = some true :=
  isStronglyConnected_iff_reachable G3 (by decide)

theorem indexOf?_eq_none_iff {x : Int} {l : List Int} :
    indexOf? x l = none ↔ x ∉ l := by
  induction l with
  | nil => simp [indexOf?]
  | cons y rest ih =>
    by_cases hy : y = x
    · simp [indexOf?, hy]
    · simp only [indexOf?, hy, if_false, List.mem_cons]
      rw [Option.map_eq_none', ih]
      constructor
      · intro h hc
        rcases hc with hc | hc
        · exact hy hc.symm
        · exact h hc
      · intro h hc
        exact h (Or.inr hc)

theorem indexOf?_mem_exists {x : Int} {l : List Int} (h : x ∈ l) :
    ∃ i, indexOf? x l = some i := by
  rcases hx : indexOf? x l with _ | i
  · exact absurd h (indexOf?_eq_none_iff.mp hx)
  · exact ⟨i, rfl⟩

theorem indexOf?_some_get {x : Int} {l : List Int} {i : Nat}
    (h : indexOf? x l = some i) : l[i]? = some x := by
  induction l generalizing i with
  | nil => simp [indexOf?] at h
  | cons y rest ih =>
    by_cases hy : y = x
    · simp only [indexOf?, hy, if_pos] at h
      injection h with h
      subst h
      simp [hy]
    · simp only [indexOf?, hy, if_false, Option.map_eq_some'] at h
      obtain ⟨j, hj, hji⟩ := h
      subst hji
      simpa using ih hj

theorem indexOf?_some_lt {x : Int} {l : List Int} {i : Nat}
    (h : indexOf? x l = some i) : i < l.length := by
  have := indexOf?_some_get h
  by_contra hc
  rw [List.getElem?_eq_none (by omega)] at this
  simp at this

theorem indexOf?_inj {x y : Int} {l : List Int} {i : Nat}
    (hx : indexOf? x l = some i) (hy : indexOf? y l = some i) : x = y := by
  have h1 := indexOf?_some_get hx
  have h2 := indexOf?_some_get hy
  rw [h1] at h2
  injection h2

theorem pqMinEntry_mem {W : Type} [LinearOrderedAddCommMonoid W]
    {pq : List (WithTop W × Int)} {x : WithTop W × Int}
    (h : pqMinEntry pq = some x) : x ∈ pq := by
  induction pq generalizing x with
  | nil => simp [pqMinEntry] at h
  | cons y rest ih =>
    rw [pqMinEntry] at h
    rcases hm : pqMinEntry rest with _ | z
    · rw [hm] at h
      injection h with h
      subst h
      exact List.mem_cons_self _ _
    · rw [hm] at h
      injection h with h
      by_cases hle : pqLeB y z = true
      · rw [if_pos hle] at h
        subst h
        exact List.mem_cons_self _ _
      · rw [if_neg hle] at h
        subst h
        exact List.mem_cons_of_mem _ (ih hm)

theorem pqPop_none_iff {W : Type} [LinearOrderedAddCommMonoid W]
    {pq : List (WithTop W × Int)} : pqPop pq = none ↔ pq = [] := by
  cases pq with
  | nil => simp [pqPop, pqMinEntry]
  | cons y rest =>
    simp only [pqPop]
    rcases hm : pqMinEntry (y :: rest) with _ | z
    · rw [pqMinEntry] at hm
      rcases hm2 : pqMinEntry rest with _ | w
      · rw [hm2] at hm
        simp at hm
      · rw [hm2] at hm
        simp at hm
    · simp

theorem pqPop_some {W : Type} [LinearOrderedAddCommMonoid W]
    {pq rest : List (WithTop W × Int)} {x : WithTop W × Int}
    (h : pqPop pq = some (x, rest)) : x ∈ pq ∧ rest = pq.erase x := by
  unfold pqPop at h
  rcases hm : pqMinEntry pq with _ | z
  · rw [hm] at h
    simp at h
  · rw [hm] at h
    injection h with h
    injection h with h1 h2
    subst h1
    exact ⟨pqMinEntry_mem hm, h2.symm⟩

theorem not_add_coe_lt_self {W : Type} [LinearOrderedAddCommMonoid W] (q wt : W)
    (h : 0 ≤ wt) : ¬ ((q : WithTop W) + (wt : WithTop W) < (q : WithTop W)) := by
  rw [← WithTop.coe_add, WithTop.coe_lt_coe]
  intro hc
  nth_rewrite 2 [← add_zero q] at hc
  exact absurd (lt_of_add_lt_add_left hc) (not_lt.mpr h)

theorem ne_top_of_le_coe {W : Type} [LinearOrderedAddCommMonoid W]
    {d : WithTop W} {q : W} (h : d ≤ (q : WithTop W)) : d ≠ (⊤ : WithTop W) := by
  intro hc
  subst hc
  exact WithTop.not_top_le_coe q h

theorem edgeInfo_ok_of_edge {g : Digraph VertexInfo EdgeInfo} (hwf : WF g)
    {a : Int} {r : DigraphVertex VertexInfo EdgeInfo} (hr : mapFind g.m a = some r)
    {ed : DigraphEdge EdgeInfo} (hed : ed ∈ r.edges) :
    ∃ info, edgeInfo g a ed.toVertex = .ok info := by
  obtain ⟨-, -, hkv, -, hft, -⟩ := hwf
  have hain : a ∈ g.v := hkv (a, r) (mapFind_mem hr)
  have hbin : ed.toVertex ∈ g.v := (hft (a, r) (mapFind_mem hr) ed hed).2
  unfold edgeInfo
  rw [show VertexExist g a = none from by simp [VertexExist, hain]]
  rw [show VertexExist g ed.toVertex = none from by simp [VertexExist, hbin]]
  rw [hr]
  dsimp only
  rcases hfd : r.edges.find? (fun it => it.toVertex == ed.toVertex) with _ | it
  · rw [List.find?_eq_none] at hfd
    exact absurd (by simp : (ed.toVertex == ed.toVertex) = true) (hfd ed hed)
  · rw [hfd]
    exact ⟨it.einfo, rfl⟩

/-- Full description of the relaxation loop over the popped vertex's
outgoing edges: it runs to completion; it never touches `Kv`; distances
only decrease, stay non-negative, and the popped vertex's own entry and the
start's zero entry are untouched; afterwards every edge target has a finite
distance; the queue only grows, by entries for present vertices with finite
distances; and each predecessor entry is either untouched or set to the
popped vertex (for a non-start target of one of its edges, made finite). -/
theorem relaxAll_spec {W : Type} [LinearOrderedAddCommMonoid W]
    (g : Digraph VertexInfo EdgeInfo) (wfun : EdgeInfo → W) (hwf : WF g)
    (hnn : ∀ i, 0 ≤ wfun i) (start vertex : Int) (index : Nat)
    (r : DigraphVertex VertexInfo EdgeInfo)
    (hidx : indexOf? vertex g.v = some index) (hr : mapFind g.m vertex = some r) :
    ∀ (eds : List (DigraphEdge EdgeInfo)) (st : DState W),
    (∀ ed ∈ eds, ed ∈ r.edges) →
    st.Dv.length = g.v.length →
    (∀ d ∈ st.Dv, 0 ≤ d) →
    (∀ i0, indexOf? start g.v = some i0 → st.Dv[i0]? = some 0) →
    (∃ di : W, st.Dv[index]? = some (di : WithTop W)) →
    st.Pv.map Prod.fst = g.v →
    ∃ st', relaxAll g wfun vertex index eds st = .ok st' ∧
      st'.Kv = st.Kv ∧
      st'.Dv.length = st.Dv.length ∧
      (∀ d ∈ st'.Dv, 0 ≤ d) ∧
      (∀ (k : Nat) (d : WithTop W), st.Dv[k]? = some d →
        ∃ d', st'.Dv[k]? = some d' ∧ d' ≤ d) ∧
      st'.Dv[index]? = st.Dv[index]? ∧
      (∀ ed ∈ eds, ∀ j, indexOf? ed.toVertex g.v = some j → ¬ st'.Dv[j]? = some ⊤) ∧
      (∃ app, st'.pq = st.pq ++ app ∧
        (∀ pr ∈ app, pr.2 ∈ g.v ∧
          ∀ i, indexOf? pr.2 g.v = some i → ¬ st'.Dv[i]? = some ⊤) ∧
        app.length ≤ eds.length ∧
        (∀ (x : Int) (ix : Nat), indexOf? x g.v = some ix →
          ¬ st'.Dv[ix]? = some ⊤ → st.Dv[ix]? = some ⊤ → ∃ pr ∈ app, pr.2 = x)) ∧
      st'.Pv.map Prod.fst = g.v ∧
      (∀ x i, indexOf? x g.v = some i →
        (st'.Dv[i]? = st.Dv[i]? ∧ mapFind st'.Pv x = mapFind st.Pv x) ∨
        (¬ x = vertex ∧ ¬ x = start ∧ stepEdge g vertex x ∧
          mapFind st'.Pv x = some vertex ∧ ¬ st'.Dv[i]? = some ⊤)) ∧
      (∀ x, x ∉ g.v → mapFind st'.Pv x = mapFind st.Pv x) := by
  intro eds
  induction eds with
  | nil =>
    intro st _ hlen hnneg hzero hdi hkeys
    refine ⟨st, rfl, rfl, rfl, hnneg, ?_, rfl, by simp,
      ⟨[], by simp, by simp, by simp, fun x ix _ hfin htop => absurd htop hfin⟩,
      hkeys, ?_, fun x _ => rfl⟩
    · intro k d hd
      exact ⟨d, hd, le_refl d⟩
    · intro x i _
      exact Or.inl ⟨rfl, rfl⟩
  | cons ed rest ih =>
    intro st heds hlen hnneg hzero hdi hkeys
    obtain ⟨di, hdieq⟩ := hdi
    have hedr : ed ∈ r.edges := heds ed (List.mem_cons_self _ _)
    have hvmem : (vertex, r) ∈ g.m := mapFind_mem hr
    have htarget : ed.toVertex ∈ g.v := by
      obtain ⟨-, -, -, -, hft, -⟩ := hwf
      exact (hft (vertex, r) hvmem ed hedr).2
    obtain ⟨indexW, hposW⟩ := indexOf?_mem_exists htarget
    have hWlt : indexW < st.Dv.length := by
      rw [hlen]
      exact indexOf?_some_lt hposW
    have hdW : st.Dv[indexW]? = some st.Dv[indexW] := List.getElem?_eq_getElem hWlt
    obtain ⟨info, hinfo⟩ := edgeInfo_ok_of_edge hwf hr hedr
    have hrun1 : ∀ (res : Except CxxAbort (DState W)),
        (if (di : WithTop W) + (wfun info : WithTop W) < st.Dv[indexW] then
          relaxAll g wfun vertex index rest
            { st with Dv := st.Dv.set indexW ((di : WithTop W) + (wfun info : WithTop W)),
                      Pv := mapAssign st.Pv ed.toVertex vertex,
                      pq := st.pq ++ [((di : WithTop W) + (wfun info : WithTop W), ed.toVertex)] }
          else relaxAll g wfun vertex index rest st) = res →
        relaxAll g wfun vertex index (ed :: rest) st = res := by
      intro res hres
      rw [relaxAll, hposW]
      dsimp only
      rw [hdW, hdieq]
      dsimp only
      rw [hinfo]
      dsimp only
      exact hres
    have hnnW : (0 : WithTop W) ≤ (wfun info : WithTop W) := by
      rw [← WithTop.coe_zero, WithTop.coe_le_coe]
      exact hnn info
    have hdinn : (0 : WithTop W) ≤ (di : WithTop W) := by
      have hmem := List.getElem?_mem hdieq
      exact hnneg _ hmem
    by_cases hcmp : (di : WithTop W) + (wfun info : WithTop W) < st.Dv[indexW]
    · -- the relaxation improves the target's distance
      have hWne : ¬ index = indexW := by
        intro hc
        subst hc
        rw [hdW] at hdieq
        injection hdieq with hdieq
        rw [hdieq] at hcmp
        exact not_add_coe_lt_self di (wfun info) (hnn info) hcmp
      have hvne : ¬ ed.toVertex = vertex := by
        intro hc
        rw [hc] at hposW
        rw [hposW] at hidx
        injection hidx with hidx
        exact hWne hidx.symm
      have hsne : ¬ ed.toVertex = start := by
        intro hc
        have h0 := hzero indexW (by rwa [hc] at hposW)
        rw [hdW] at h0
        injection h0 with h0
        rw [h0] at hcmp
        exact absurd hcmp (by
          rw [not_lt]
          exact add_nonneg hdinn hnnW)
      set newval : WithTop W := (di : WithTop W) + (wfun info : WithTop W) with hnewval
      have hnewfin : newval = ((di + wfun info : W) : WithTop W) := by
        rw [hnewval, WithTop.coe_add]
      set st1 : DState W :=
        { st with Dv := st.Dv.set indexW newval,
                  Pv := mapAssign st.Pv ed.toVertex vertex,
                  pq := st.pq ++ [(newval, ed.toVertex)] } with hst1
      have hlen1 : st1.Dv.length = g.v.length := by
        rw [hst1]
        dsimp only
        rw [List.length_set]
        exact hlen
      have htkeys : ed.toVertex ∈ st.Pv.map Prod.fst := by
        rw [hkeys]
        exact htarget
      have hkeys1 : st1.Pv.map Prod.fst = g.v := by
        rw [hst1]
        dsimp only
        rw [mapAssign_keys_of_mem _ _ _ htkeys]
        exact hkeys
      have hnneg1 : ∀ d ∈ st1.Dv, 0 ≤ d := by
        intro d hd
        rw [hst1] at hd
        dsimp only at hd
        rcases List.mem_or_eq_of_mem_set hd with h | h
        · exact hnneg d h
        · rw [h, hnewval]
          exact add_nonneg hdinn hnnW
      have hzero1 : ∀ i0, indexOf? start g.v = some i0 → st1.Dv[i0]? = some 0 := by
        intro i0 h0
        have hne : ¬ indexW = i0 := by
          intro hc
          exact hsne (indexOf?_inj hposW (hc ▸ h0))
        rw [hst1]
        dsimp only
        rw [List.getElem?_set_ne hne]
        exact hzero i0 h0
      have hdi1 : ∃ d1 : W, st1.Dv[index]? = some (d1 : WithTop W) := by
        refine ⟨di, ?_⟩
        rw [hst1]
        dsimp only
        rw [List.getElem?_set_ne (fun hc => hWne hc.symm)]
        exact hdieq
      obtain ⟨st2, hrun2, hKv2, hlen2, hnneg2, hmono2, hidx2, htgt2, hpq2, hkeys2,
        hdelta2, hout2⟩ := ih st1 (fun x hx => heds x (List.mem_cons_of_mem _ hx))
        hlen1 hnneg1 hzero1 hdi1 hkeys1
      obtain ⟨app2, happ2, happrop2, happlen2, hnew2⟩ := hpq2
      have hmono1 : ∀ (k : Nat) (d : WithTop W), st.Dv[k]? = some d →
          ∃ d', st1.Dv[k]? = some d' ∧ d' ≤ d := by
        intro k d hd
        by_cases hk : indexW = k
        · subst hk
          refine ⟨newval, ?_, ?_⟩
          · rw [hst1]
            dsimp only
            exact List.getElem?_set_eq hWlt
          · rw [hdW] at hd
            injection hd with hd
            rw [← hd]
            exact le_of_lt hcmp
        · refine ⟨d, ?_, le_refl d⟩
          rw [hst1]
          dsimp only
          rw [List.getElem?_set_ne hk]
          exact hd
      have hW2fin : ¬ st2.Dv[indexW]? = some ⊤ := by
        have h1 : st1.Dv[indexW]? = some newval := by
          rw [hst1]
          dsimp only
          exact List.getElem?_set_eq hWlt
        obtain ⟨d2, hd2, hle2⟩ := hmono2 indexW newval h1
        rw [hd2]
        intro hc
        injection hc with hc
        rw [hc] at hle2
        rw [hnewfin] at hle2
        exact ne_top_of_le_coe hle2 rfl
      refine ⟨st2, hrun1 _ (by rw [if_pos hcmp]; exact hrun2), hKv2, ?_, hnneg2,
        ?_, ?_, ?_, ?_, hkeys2, ?_, ?_⟩
      · rw [hlen2, hst1]
        dsimp only
        rw [List.length_set]
      · intro k d hd
        obtain ⟨d1, hd1, hle1⟩ := hmono1 k d hd
        obtain ⟨d2, hd2, hle2⟩ := hmono2 k d1 hd1
        exact ⟨d2, hd2, le_trans hle2 hle1⟩
      · rw [hidx2, hst1]
        dsimp only
        rw [List.getElem?_set_ne (fun hc => hWne hc.symm)]
      · intro ed' hed' j hj
        rcases List.mem_cons.mp hed' with h | h
        · subst h
          rw [hposW] at hj
          injection hj with hj
          subst hj
          exact hW2fin
        · exact htgt2 ed' h j hj
      · refine ⟨(newval, ed.toVertex) :: app2, ?_, ?_, ?_, ?_⟩
        · rw [happ2, hst1]
          dsimp only
          rw [List.append_assoc, List.singleton_append]
        · intro pr hpr
          rcases List.mem_cons.mp hpr with h | h
          · subst h
            refine ⟨htarget, ?_⟩
            intro i hi
            rw [hposW] at hi
            injection hi with hi
            subst hi
            exact hW2fin
          · exact happrop2 pr h
        · simp only [List.length_cons, List.filter_cons]
          omega
        · intro x ix hix hfin htop
          by_cases hxe : x = ed.toVertex
          · exact ⟨(newval, ed.toVertex), List.mem_cons_self _ _, hxe.symm⟩
          · have hine : ¬ indexW = ix := by
              intro hc
              subst hc
              exact hxe (indexOf?_inj hix hposW)
            have htop1 : st1.Dv[ix]? = some ⊤ := by
              rw [hst1]
              dsimp only
              rw [List.getElem?_set_ne hine]
              exact htop
            obtain ⟨pr, hpr, hpr2⟩ := hnew2 x ix hix hfin htop1
            exact ⟨pr, List.mem_cons_of_mem _ hpr, hpr2⟩
      · intro x i hi
        by_cases hxt : x = ed.toVertex
        · subst hxt
          right
          have hieq : i = indexW := by
            rw [hposW] at hi
            injection hi with hh
            exact hh.symm
          subst hieq
          refine ⟨hvne, hsne, ?_, ?_, hW2fin⟩
          · show hasEdge g vertex ed.toVertex = true
            rw [hasEdge_iff]
            exact ⟨r, hr, ed, hedr, rfl⟩
          · rcases hdelta2 ed.toVertex i hi with ⟨-, hpv⟩ | ⟨-, -, -, hpv, -⟩
            · rw [hpv, hst1]
              dsimp only
              rw [mapFind_mapAssign_self]
            · exact hpv
        · have hine : ¬ indexW = i := by
            intro hc
            subst hc
            exact hxt (indexOf?_inj hi hposW)
          have hDv1 : st1.Dv[i]? = st.Dv[i]? := by
            rw [hst1]
            dsimp only
            rw [List.getElem?_set_ne hine]
          have hPv1 : mapFind st1.Pv x = mapFind st.Pv x := by
            rw [hst1]
            dsimp only
            rw [mapFind_mapAssign_ne _ _ _ _ hxt]
          rcases hdelta2 x i hi with ⟨hd2, hp2⟩ | ⟨h1, h2, h3, h4, h5⟩
          · exact Or.inl ⟨by rw [hd2, hDv1], by rw [hp2, hPv1]⟩
          · exact Or.inr ⟨h1, h2, h3, h4, h5⟩
      · intro x hx
        have hxb : ¬ x = ed.toVertex := by
          intro hc
          exact hx (hc ▸ htarget)
        rw [hout2 x hx, hst1]
        dsimp only
        rw [mapFind_mapAssign_ne _ _ _ _ hxb]
    · -- no improvement: the state is unchanged for this edge
      obtain ⟨st2, hrun2, hKv2, hlen2, hnneg2, hmono2, hidx2, htgt2, hpq2, hkeys2,
        hdelta2, hout2⟩ := ih st (fun x hx => heds x (List.mem_cons_of_mem _ hx))
        hlen hnneg hzero ⟨di, hdieq⟩ hkeys
      have hpq2' : ∃ app, st2.pq = st.pq ++ app ∧
          (∀ pr ∈ app, pr.2 ∈ g.v ∧
            ∀ i, indexOf? pr.2 g.v = some i → ¬ st2.Dv[i]? = some ⊤) ∧
          app.length ≤ (ed :: rest).length ∧
          (∀ (x : Int) (ix : Nat), indexOf? x g.v = some ix →
            ¬ st2.Dv[ix]? = some ⊤ → st.Dv[ix]? = some ⊤ → ∃ pr ∈ app, pr.2 = x) := by
        obtain ⟨app2, h1, h2, h3, h4⟩ := hpq2
        refine ⟨app2, h1, h2, ?_, h4⟩
        simp only [List.length_cons]
        omega
      refine ⟨st2, hrun1 _ (by rw [if_neg hcmp]; exact hrun2), hKv2, hlen2, hnneg2,
        hmono2, hidx2, ?_, hpq2', hkeys2, hdelta2, hout2⟩
      intro ed' hed' j hj
      rcases List.mem_cons.mp hed' with h | h
      · subst h
        rw [hposW] at hj
        injection hj with hj
        subst hj
        obtain ⟨d2, hd2, hle2⟩ := hmono2 indexW st.Dv[indexW] hdW
        rw [hd2]
        intro hc
        injection hc with hc
        subst hc
        rw [not_lt] at hcmp
        have htop : (⊤ : WithTop W) ≤ (di : WithTop W) + (wfun info : WithTop W) :=
          le_trans hle2 hcmp
        rw [← WithTop.coe_add] at htop
        exact WithTop.not_top_le_coe _ htop
      · exact htgt2 ed' h j hj

theorem Dv_finite_mono {W : Type} [LinearOrderedAddCommMonoid W]
    {A B : List (WithTop W)}
    (hmono : ∀ (k : Nat) (d : WithTop W), A[k]? = some d → ∃ d', B[k]? = some d' ∧ d' ≤ d)
    {i : Nat} (hi : i < A.length) (hfin : ¬ A[i]? = some ⊤) : ¬ B[i]? = some ⊤ := by
  have hA : A[i]? = some A[i] := List.getElem?_eq_getElem hi
  have hne : A[i] ≠ (⊤ : WithTop W) := by
    intro hc
    exact hfin (by rw [hA, hc])
  obtain ⟨w, hw⟩ := WithTop.ne_top_iff_exists.mp hne
  obtain ⟨d', hd', hle⟩ := hmono i A[i] hA
  rw [hd']
  intro hc
  injection hc with hc
  subst hc
  rw [← hw] at hle
  exact WithTop.not_top_le_coe w hle

theorem sum_map_add_nat {α : Type} (l : List α) (f f' : α → Nat) :
    (l.map (fun x => f x + f' x)).sum = (l.map f).sum + (l.map f').sum := by
  induction l with
  | nil => simp
  | cons a t ih =>
    simp only [List.map_cons, List.sum_cons, ih]
    omega

theorem sum_map_ite_index (n index c : Nat) (h : index < n) :
    ((List.range n).map (fun i => if i = index then c else 0)).sum = c := by
  induction n with
  | zero => omega
  | succ n ih =>
    rw [List.range_succ, List.map_append, List.sum_append]
    by_cases hn : index = n
    · subst hn
      have hz : ((List.range index).map (fun i => if i = index then c else 0)).sum = 0 := by
        apply List.sum_eq_zero
        intro x hx
        obtain ⟨i, hi, hix⟩ := List.mem_map.mp hx
        rw [List.mem_range] at hi
        rw [← hix, if_neg (by omega)]
      rw [hz]
      simp
    · rw [ih (by omega)]
      simp only [List.map_cons, List.map_nil, List.sum_cons, List.sum_nil]
      rw [if_neg (fun hc => hn hc.symm)]
      omega

theorem unprocSum_set (g : Digraph VertexInfo EdgeInfo) (Kv : List Bool) (index : Nat)
    (hlen : Kv.length = g.v.length) (hidx : index < g.v.length)
    (hne : ¬ Kv[index]? = some true) :
    unprocSum g (Kv.set index true) + outdegAt g index = unprocSum g Kv := by
  unfold unprocSum
  have hcong : ∀ i ∈ List.range g.v.length,
      (if Kv[i]? = some true then 0 else outdegAt g i) =
      (if (Kv.set index true)[i]? = some true then 0 else outdegAt g i) +
        (if i = index then outdegAt g index else 0) := by
    intro i hi
    by_cases hii : i = index
    · subst hii
      have hset : (Kv.set i true)[i]? = some true :=
        List.getElem?_set_self (by omega)
      rw [if_pos hset, if_neg hne, if_pos rfl]
      omega
    · have hset : (Kv.set index true)[i]? = Kv[i]? :=
        List.getElem?_set_ne (fun hc => hii hc.symm)
      rw [hset, if_neg hii]
      exact (Nat.add_zero _).symm
  rw [List.map_congr_left hcong, sum_map_add_nat, sum_map_ite_index _ _ _ hidx]

theorem outdegAt_of_index {g : Digraph VertexInfo EdgeInfo} {x : Int} {index : Nat}
    {r : DigraphVertex VertexInfo EdgeInfo}
    (hidx : indexOf? x g.v = some index) (hr : mapFind g.m x = some r) :
    outdegAt g index = r.edges.length := by
  unfold outdegAt
  rw [indexOf?_some_get hidx]
  dsimp only
  unfold outdeg
  rw [hr]

theorem initPvLoop_keys : ∀ (l : List Int) (acc : List (Int × Int)), l.Nodup →
    (∀ x ∈ l, x ∉ acc.map Prod.fst) →
    (initPvLoop l acc).map Prod.fst = acc.map Prod.fst ++ l := by
  intro l
  induction l with
  | nil =>
    intro acc _ _
    simp [initPvLoop]
  | cons x t ih =>
    intro acc hnd hfresh
    rw [initPvLoop]
    have hx : x ∉ acc.map Prod.fst := hfresh x (List.mem_cons_self _ _)
    have hkeys : (mapAssign acc x x).map Prod.fst = acc.map Prod.fst ++ [x] := by
      rw [mapAssign_of_not_mem _ _ _ hx, List.map_append]
      rfl
    rw [ih (mapAssign acc x x) (List.nodup_cons.mp hnd).2 ?_, hkeys, List.append_assoc,
      List.singleton_append]
    intro y hy
    rw [hkeys, List.mem_append, List.mem_singleton]
    push_neg
    refine ⟨hfresh y (List.mem_cons_of_mem _ hy), ?_⟩
    intro hc
    subst hc
    exact (List.nodup_cons.mp hnd).1 hy

theorem initPvLoop_find_not_mem : ∀ (l : List Int) (acc : List (Int × Int)) (x : Int),
    x ∉ l → mapFind (initPvLoop l acc) x = mapFind acc x := by
  intro l
  induction l with
  | nil =>
    intro acc x _
    rw [initPvLoop]
  | cons y t ih =>
    intro acc x hx
    rw [List.mem_cons] at hx
    push_neg at hx
    rw [initPvLoop, ih _ _ hx.2, mapFind_mapAssign_ne _ _ _ _ hx.1]

theorem initPvLoop_find_mem : ∀ (l : List Int) (acc : List (Int × Int)) (x : Int),
    x ∈ l → mapFind (initPvLoop l acc) x = some x := by
  intro l
  induction l with
  | nil =>
    intro acc x hx
    simp at hx
  | cons y t ih =>
    intro acc x hx
    rw [initPvLoop]
    by_cases hxt : x ∈ t
    · exact ih _ _ hxt
    · have hxy : x = y := by
        rcases List.mem_cons.mp hx with h | h
        · exact h
        · exact absurd h hxt
      subst hxy
      rw [initPvLoop_find_not_mem _ _ _ hxt, mapFind_mapAssign_self]

/-- The Dijkstra loop terminates within the potential bound, preserves the
invariant, and returns the predecessor array of a final state whose queue is
empty. -/
theorem dijkstraLoop_spec {W : Type} [LinearOrderedAddCommMonoid W]
    (g : Digraph VertexInfo EdgeInfo) (wfun : EdgeInfo → W) (hwf : WF g)
    (hnn : ∀ i, 0 ≤ wfun i) (start : Int) :
    ∀ (fuel : Nat) (st : DState W), DInv g start st → dPhi g st < fuel →
    ∃ st' : DState W, dijkstraLoop g wfun fuel st = .ok st'.Pv ∧ DInv g start st' ∧
      st'.pq = [] := by
  intro fuel
  induction fuel with
  | zero =>
    intro st _ hphi
    exact absurd hphi (Nat.not_lt_zero _)
  | succ fuel ih =>
    intro st hinv hphi
    rcases hpop : pqPop st.pq with _ | ⟨top, pq1⟩
    · refine ⟨st, ?_, hinv, pqPop_none_iff.mp hpop⟩
      rw [dijkstraLoop, hpop]
    · obtain ⟨htopmem, hpq1⟩ := pqPop_some hpop
      obtain ⟨htopv, htopreach, htopfin⟩ := hinv.hqueue top htopmem
      obtain ⟨index, hidxtop⟩ := indexOf?_mem_exists htopv
      have hidxlt : index < g.v.length := indexOf?_some_lt hidxtop
      have hKvlt : index < st.Kv.length := by rw [hinv.hKlen]; exact hidxlt
      have hKvsome : st.Kv[index]? = some st.Kv[index] := List.getElem?_eq_getElem hKvlt
      have hpqlen : pq1.length + 1 = st.pq.length := by
        rw [hpq1, List.length_erase_of_mem htopmem]
        have := List.length_pos_of_mem htopmem
        omega
      have hrun : ∀ (res : Except CxxAbort (List (Int × Int))),
          (if st.Kv[index] = false then
            match mapFind g.m top.2 with
            | none => .error .mapAtOutOfRange
            | some r =>
              match relaxAll g wfun top.2 index r.edges
                  { st with pq := pq1, Kv := st.Kv.set index true } with
              | .error err => .error err
              | .ok st1 => dijkstraLoop g wfun fuel st1
          else dijkstraLoop g wfun fuel { st with pq := pq1 }) = res →
          dijkstraLoop g wfun (fuel + 1) st = res := by
        intro res hres
        rw [dijkstraLoop, hpop]
        dsimp only
        rw [hidxtop]
        dsimp only
        rw [hKvsome]
        dsimp only
        exact hres
      by_cases hkv : st.Kv[index] = false
      · -- the popped vertex is not yet visited: mark it and relax its edges
        have hms : (mapFind g.m top.2).isSome = true := by
          obtain ⟨-, -, -, hsome, -⟩ := hwf
          exact hsome top.2 htopv
        rcases hr : mapFind g.m top.2 with _ | r
        · rw [hr] at hms
          simp at hms
        set st1 : DState W := { st with pq := pq1, Kv := st.Kv.set index true } with hst1
        have hfintop : ∃ di : W, st1.Dv[index]? = some (di : WithTop W) := by
          have hfin := htopfin index hidxtop
          have hDlt : index < st.Dv.length := by rw [hinv.hDlen]; exact hidxlt
          have hD : st.Dv[index]? = some st.Dv[index] := List.getElem?_eq_getElem hDlt
          have hne : st.Dv[index] ≠ (⊤ : WithTop W) := by
            intro hc
            exact hfin (by rw [hD, hc])
          obtain ⟨w, hw⟩ := WithTop.ne_top_iff_exists.mp hne
          refine ⟨w, ?_⟩
          show st.Dv[index]? = _
          rw [hD, hw]
        obtain ⟨st2, hrel, hKv2, hDlen2, hnneg2, hmono2, hidx2, htgt2, hpq2, hkeys2,
          hdelta2, hout2⟩ :=
          relaxAll_spec g wfun hwf hnn start top.2 index r hidxtop hr r.edges st1
            (fun _ h => h) hinv.hDlen hinv.hnneg hinv.hzero hfintop hinv.hPkeys
        obtain ⟨app, happ, happrop, happlen, hnew⟩ := hpq2
        have hDvst : st1.Dv = st.Dv := rfl
        have hKvst : st1.Kv = st.Kv.set index true := rfl
        have hpqst : st1.pq = pq1 := rfl
        have hPvst : st1.Pv = st.Pv := rfl
        rw [hKvst] at hKv2
        rw [hDvst] at hDlen2 hmono2 hidx2 hnew
        rw [hpqst] at happ
        rw [hDvst, hPvst] at hdelta2
        rw [hPvst] at hout2
        have hfinreach2 : ∀ x ∈ g.v, ∀ ix, indexOf? x g.v = some ix →
            ¬ st2.Dv[ix]? = some ⊤ → Reachable g start x := by
          intro x hx ix hix hfin
          rcases hdelta2 x ix hix with ⟨hdv, -⟩ | ⟨-, -, hstep, -, -⟩
          · exact hinv.hfinreach x hx ix hix (by rw [← hdv]; exact hfin)
          · exact Relation.ReflTransGen.tail htopreach hstep
        have hinv2 : DInv g start st2 := by
          refine ⟨?_, ?_, hkeys2, hnneg2, ?_, ?_, ?_, hfinreach2, ?_, ?_, ?_⟩
          · rw [hKv2, List.length_set, hinv.hKlen]
          · rw [hDlen2, hinv.hDlen]
          · intro i0 h0
            rcases hdelta2 start i0 h0 with ⟨hdv, -⟩ | ⟨-, habs, -, -, -⟩
            · rw [hdv]
              exact hinv.hzero i0 h0
            · exact absurd rfl habs
          · by_cases hsv : start ∈ g.v
            · obtain ⟨i0, h0⟩ := indexOf?_mem_exists hsv
              rcases hdelta2 start i0 h0 with ⟨-, hpv⟩ | ⟨-, habs, -, -, -⟩
              · rw [hpv]
                exact hinv.hPstart
              · exact absurd rfl habs
            · rw [hout2 start hsv]
              exact hinv.hPstart
          · intro x hx hxs ix hix
            rcases hdelta2 x ix hix with ⟨hdv, hpv⟩ | ⟨hxv, -, -, hpv, hfin⟩
            · rw [hdv, hpv]
              exact hinv.hself x hx hxs ix hix
            · rw [hpv]
              refine iff_of_false ?_ hfin
              intro hc
              injection hc with hc
              exact hxv hc.symm
          · intro pr hpr
            rw [happ] at hpr
            rcases List.mem_append.mp hpr with h | h
            · have hprpq : pr ∈ st.pq := by
                rw [hpq1] at h
                exact List.mem_of_mem_erase h
              obtain ⟨h1, h2, h3⟩ := hinv.hqueue pr hprpq
              refine ⟨h1, h2, ?_⟩
              intro i hi
              have hlt : i < st.Dv.length := by
                rw [hinv.hDlen]
                exact indexOf?_some_lt hi
              exact Dv_finite_mono hmono2 hlt (h3 i hi)
            · obtain ⟨h1, h2⟩ := happrop pr h
              refine ⟨h1, ?_, h2⟩
              obtain ⟨i, hi⟩ := indexOf?_mem_exists h1
              exact hfinreach2 pr.2 h1 i hi (h2 i hi)
          · intro x hx ix hix hfin
            rw [hKv2]
            by_cases hold : st.Dv[ix]? = some ⊤
            · obtain ⟨pr, hpr, hpr2⟩ := hnew x ix hix hfin hold
              right
              exact ⟨pr, by rw [happ]; exact List.mem_append_right _ hpr, hpr2⟩
            · by_cases hixi : ix = index
              · subst hixi
                left
                exact List.getElem?_set_self hKvlt
              · rcases hinv.hE x hx ix hix hold with h | ⟨pr, hpr, hpr2⟩
                · left
                  rw [List.getElem?_set_ne (fun hc => hixi hc.symm)]
                  exact h
                · have hxtop : ¬ x = top.2 := by
                    intro hc
                    subst hc
                    rw [hidxtop] at hix
                    injection hix with hix
                    exact hixi hix.symm
                  have hprne : pr ≠ top := by
                    intro hc
                    subst hc
                    exact hxtop hpr2.symm
                  right
                  refine ⟨pr, ?_, hpr2⟩
                  rw [happ]
                  apply List.mem_append_left
                  rw [hpq1]
                  exact (List.mem_erase_of_ne hprne).mpr hpr
          · intro x hx ix hix hKtrue y hstep iy hiy
            rw [hKv2] at hKtrue
            have hylt : iy < st.Dv.length := by
              rw [hinv.hDlen]
              exact indexOf?_some_lt hiy
            by_cases hixi : ix = index
            · subst hixi
              have hxtop : x = top.2 := indexOf?_inj hix hidxtop
              subst hxtop
              obtain ⟨r', hr', ed, hed, hedy⟩ := hasEdge_iff.mp hstep
              rw [hr] at hr'
              injection hr' with hr'
              subst hr'
              apply htgt2 ed hed
              rw [hedy]
              exact hiy
            · have hset : (st.Kv.set index true)[ix]? = st.Kv[ix]? :=
                List.getElem?_set_ne (fun hc => hixi hc.symm)
              rw [hset] at hKtrue
              exact Dv_finite_mono hmono2 hylt (hinv.hP x hx ix hix hKtrue y hstep iy hiy)
        have hphi2 : dPhi g st2 < fuel := by
          have hlen2 : st2.pq.length = pq1.length + app.length := by
            rw [happ, List.length_append]
          have hKne : ¬ st.Kv[index]? = some true := by
            rw [hKvsome, hkv]
            simp
          have hsum : unprocSum g (st.Kv.set index true) + outdegAt g index =
              unprocSum g st.Kv :=
            unprocSum_set g st.Kv index hinv.hKlen hidxlt hKne
          have hod : outdegAt g index = r.edges.length := outdegAt_of_index hidxtop hr
          have hphi1 : dPhi g st < fuel + 1 := hphi
          unfold dPhi at hphi1 ⊢
          rw [hKv2, hlen2]
          omega
        obtain ⟨stE, hrunE, hinvE, hpqE⟩ := ih st2 hinv2 hphi2
        refine ⟨stE, ?_, hinvE, hpqE⟩
        apply hrun
        rw [if_pos hkv, hr]
        dsimp only
        rw [hrel]
        dsimp only
        exact hrunE
      · -- the popped vertex was already visited: just drop the queue entry
        have hkvt : st.Kv[index] = true := by
          cases h : st.Kv[index] with
          | false => exact absurd h hkv
          | true => rfl
        set stA : DState W := { st with pq := pq1 } with hstA
        have hinvA : DInv g start stA := by
          refine ⟨hinv.hKlen, hinv.hDlen, hinv.hPkeys, hinv.hnneg, hinv.hzero,
            hinv.hPstart, hinv.hself, hinv.hfinreach, ?_, ?_, hinv.hP⟩
          · intro pr hpr
            have hprpq : pr ∈ st.pq := by
              have hpr1 : pr ∈ pq1 := hpr
              rw [hpq1] at hpr1
              exact List.mem_of_mem_erase hpr1
            exact hinv.hqueue pr hprpq
          · intro x hx ix hix hfin
            rcases hinv.hE x hx ix hix hfin with h | ⟨pr, hpr, hpr2⟩
            · exact Or.inl h
            · by_cases hxtop : x = top.2
              · left
                subst hxtop
                rw [hidxtop] at hix
                injection hix with hix
                show st.Kv[ix]? = some true
                rw [← hix, hKvsome, hkvt]
              · right
                have hprne : pr ≠ top := by
                  intro hc
                  subst hc
                  exact hxtop hpr2.symm
                refine ⟨pr, ?_, hpr2⟩
                show pr ∈ pq1
                rw [hpq1]
                exact (List.mem_erase_of_ne hprne).mpr hpr
        have hphiA : dPhi g stA < fuel := by
          unfold dPhi at hphi ⊢
          show pq1.length + unprocSum g st.Kv < fuel
          omega
        obtain ⟨stE, hrunE, hinvE, hpqE⟩ := ih stA hinvA hphiA
        refine ⟨stE, ?_, hinvE, hpqE⟩
        apply hrun
        have hcond : ¬ (st.Kv[index] = false) := by
          rw [hkvt]
          simp
        rw [if_neg hcond]
        exact hrunE

theorem sumOutdeg_eq_e_length (g : Digraph VertexInfo EdgeInfo) (hwf : WF g) :
    sumOutdeg g = g.e.length := by
  have hwf' := hwf
  obtain ⟨hvnd, hknd, hkv, hsome, hft, hrnd, hend, hehas, hadj, hvc, hec⟩ := hwf'
  have hnd1 : (allPairs g).Nodup :=
    allPairs_nodup_of g.m hknd (fun p hp ed hed => (hft p hp ed hed).1) hrnd
  have hperm : (allPairs g).Perm g.e := by
    rw [List.perm_ext_iff_of_nodup hnd1 hend]
    exact mem_allPairs_iff hwf
  have hlen : (allPairs g).length = sumOutdeg g := by
    rw [allPairs, List.length_flatMap, sumOutdeg]
    have hfun : (List.length ∘ fun p : Int × DigraphVertex VertexInfo EdgeInfo =>
        p.2.edges.map (fun ed => (ed.fromVertex, ed.toVertex))) =
        fun p => p.2.edges.length := by
      funext p
      simp
    rw [hfun]
  rw [← hlen, hperm.length_eq]

theorem sum_outdeg_v (g : Digraph VertexInfo EdgeInfo) (hwf : WF g) :
    (g.v.map (fun x => outdeg g x)).sum = sumOutdeg g := by
  have hwf' := hwf
  obtain ⟨hvnd, hknd, hkv, hsome, hft, hrnd, hend, hehas, hadj, hvc, hec⟩ := hwf'
  have hpermk : g.v.Perm (g.m.map Prod.fst) := by
    rw [List.perm_ext_iff_of_nodup hvnd hknd]
    intro x
    constructor
    · intro hx
      exact mapFind_isSome_iff.mp (hsome x hx)
    · intro hx
      obtain ⟨p, hp, hpx⟩ := List.mem_map.mp hx
      rw [← hpx]
      exact hkv p hp
  rw [(hpermk.map (fun x => outdeg g x)).sum_eq, List.map_map]
  have hcong : ∀ p ∈ g.m, ((fun x => outdeg g x) ∘ Prod.fst) p =
      (fun p : Int × DigraphVertex VertexInfo EdgeInfo => p.2.edges.length) p := by
    intro p hp
    have hf : mapFind g.m p.1 = some p.2 := mapFind_eq_of_mem_nodup hknd hp
    simp only [Function.comp]
    unfold outdeg
    rw [hf]
  rw [List.map_congr_left hcong]
  rfl

theorem sum_map_range_getElem {α : Type} (l : List α) (f : α → Nat) :
    ((List.range l.length).map (fun i => (l[i]?.map f).getD 0)).sum = (l.map f).sum := by
  induction l with
  | nil => simp
  | cons a t ih =>
    rw [List.length_cons, List.range_succ_eq_map t.length, List.map_cons, List.map_map]
    have hcong : ∀ i ∈ List.range t.length,
        ((fun i => (((a :: t)[i]?).map f).getD 0) ∘ Nat.succ) i
          = (fun i => ((t[i]?).map f).getD 0) i := by
      intro i hi
      simp only [Function.comp, List.getElem?_cons_succ]
    rw [List.map_congr_left hcong, List.sum_cons, ih, List.getElem?_cons_zero, List.map_cons,
      List.sum_cons]
    rfl

theorem unprocSum_replicate_false (g : Digraph VertexInfo EdgeInfo) (hwf : WF g) :
    unprocSum g (List.replicate g.v.length false) = g.e.length := by
  unfold unprocSum
  have hcong : ∀ i ∈ List.range g.v.length,
      (if (List.replicate g.v.length false)[i]? = some true then 0 else outdegAt g i)
        = (fun i => ((g.v[i]?).map (fun x => outdeg g x)).getD 0) i := by
    intro i hi
    rw [List.mem_range] at hi
    have hv : g.v[i]? = some g.v[i] := List.getElem?_eq_getElem hi
    have hrep : (List.replicate g.v.length false)[i]? = some false := by
      rw [List.getElem?_replicate, if_pos hi]
    rw [hrep, if_neg (by simp)]
    show outdegAt g i = _
    unfold outdegAt
    dsimp only
    rw [hv]
    rfl
  rw [List.map_congr_left hcong, sum_map_range_getElem g.v (fun x => outdeg g x),
    sum_outdeg_v g hwf, sumOutdeg_eq_e_length g hwf]

/-- At a state with an empty queue, the invariant forces every vertex
reachable from the start to have a finite distance. -/
theorem DInv_empty_reachable_finite {W : Type} [LinearOrderedAddCommMonoid W]
    {g : Digraph VertexInfo EdgeInfo} {start : Int} {st : DState W}
    (hwf : WF g) (hinv : DInv g start st) (hpq : st.pq = []) :
    ∀ x, Reachable g start x → ∀ ix, indexOf? x g.v = some ix →
      ¬ st.Dv[ix]? = some ⊤ := by
  intro x hreach
  induction hreach with
  | refl =>
    intro ix hix
    rw [hinv.hzero ix hix]
    intro hc
    injection hc with hc
    rw [← WithTop.coe_zero] at hc
    exact WithTop.coe_ne_top hc
  | @tail y z hab hbc ihy =>
    intro ix hix
    obtain ⟨ry, hry, ed, hed, hedz⟩ := hasEdge_iff.mp hbc
    have hymem : y ∈ g.v := by
      obtain ⟨-, -, hkv, -⟩ := hwf
      exact hkv (y, ry) (mapFind_mem hry)
    obtain ⟨iy, hiy⟩ := indexOf?_mem_exists hymem
    have hyfin : ¬ st.Dv[iy]? = some ⊤ := ihy iy hiy
    have hyK : st.Kv[iy]? = some true := by
      rcases hinv.hE y hymem iy hiy hyfin with h | ⟨pr, hpr, -⟩
      · exact h
      · rw [hpq] at hpr
        simp at hpr
    exact hinv.hP y hymem iy hiy hyK z hbc ix hix

/-- The state built by `findShortestPaths` before entering the loop
satisfies the invariant. -/
theorem DInv_init {W : Type} [LinearOrderedAddCommMonoid W]
    (g : Digraph VertexInfo EdgeInfo) (start : Int) (hwf : WF g) (startIndex : Nat)
    (hidx : indexOf? start g.v = some startIndex) :
    DInv g start
      { Kv := List.replicate g.v.length false,
        Pv := initPvLoop g.v [],
        Dv := (List.replicate g.v.length (⊤ : WithTop W)).set startIndex 0,
        pq := [((0 : WithTop W), start)] } := by
  have hstart : start ∈ g.v := List.getElem?_mem (indexOf?_some_get hidx)
  have hslt : startIndex < g.v.length := indexOf?_some_lt hidx
  have hDlt : startIndex < (List.replicate g.v.length (⊤ : WithTop W)).length := by
    rw [List.length_replicate]
    exact hslt
  have hD0 : ((List.replicate g.v.length (⊤ : WithTop W)).set startIndex 0)[startIndex]?
      = some 0 := List.getElem?_set_self hDlt
  have hzt : ¬ (some (0 : WithTop W) = some (⊤ : WithTop W)) := by
    intro hc
    injection hc with hc
    rw [← WithTop.coe_zero] at hc
    exact WithTop.coe_ne_top hc
  have hDtop : ∀ ix, ¬ ix = startIndex → ix < g.v.length →
      ((List.replicate g.v.length (⊤ : WithTop W)).set startIndex 0)[ix]? = some ⊤ := by
    intro ix hne hlt
    rw [List.getElem?_set_ne (fun hc => hne hc.symm), List.getElem?_replicate, if_pos hlt]
  have hKrep : ∀ ix : Nat, ¬ (List.replicate g.v.length false)[ix]? = some true := by
    intro ix
    rw [List.getElem?_replicate]
    by_cases h : ix < g.v.length
    · rw [if_pos h]
      simp
    · rw [if_neg h]
      simp
  refine ⟨?_, ?_, ?_, ?_, ?_, ?_, ?_, ?_, ?_, ?_, ?_⟩
  · exact List.length_replicate _ _
  · show ((List.replicate g.v.length (⊤ : WithTop W)).set startIndex 0).length = _
    rw [List.length_set, List.length_replicate]
  · show (initPvLoop g.v []).map Prod.fst = g.v
    have hwf' := hwf
    obtain ⟨hvnd, -⟩ := hwf'
    rw [initPvLoop_keys g.v [] hvnd (by simp)]
    rfl
  · intro d hd
    rcases List.mem_or_eq_of_mem_set hd with h | h
    · rw [List.eq_of_mem_replicate h]
      exact le_top
    · rw [h]
  · intro i0 h0
    rw [hidx] at h0
    injection h0 with h0
    subst h0
    exact hD0
  · exact initPvLoop_find_mem g.v [] start hstart
  · intro x hx hxs ix hix
    have hne : ¬ ix = startIndex := by
      intro hc
      exact hxs (indexOf?_inj hix (hc ▸ hidx))
    refine iff_of_true (initPvLoop_find_mem g.v [] x hx) ?_
    exact hDtop ix hne (indexOf?_some_lt hix)
  · intro x hx ix hix hfin
    by_cases hixs : ix = startIndex
    · subst hixs
      have hxeq : x = start := indexOf?_inj hix hidx
      subst hxeq
      exact Relation.ReflTransGen.refl
    · exact absurd (hDtop ix hixs (indexOf?_some_lt hix)) hfin
  · intro pr hpr
    rw [List.mem_singleton] at hpr
    subst hpr
    refine ⟨hstart, Relation.ReflTransGen.refl, ?_⟩
    intro i hi
    rw [hidx] at hi
    injection hi with hi
    subst hi
    rw [hD0]
    exact hzt
  · intro x hx ix hix hfin
    by_cases hixs : ix = startIndex
    · subst hixs
      have hxeq : x = start := indexOf?_inj hix hidx
      right
      exact ⟨((0 : WithTop W), start), List.mem_singleton_self _, hxeq.symm⟩
    · exact absurd (hDtop ix hixs (indexOf?_some_lt hix)) hfin
  · intro x hx ix hix hKtrue
    exact absurd hKtrue (hKrep ix)

theorem findShortestPaths_run {W : Type} [LinearOrderedAddCommMonoid W]
    (g : Digraph VertexInfo EdgeInfo) (start : Int) (wfun : EdgeInfo → W)
    {startIndex : Nat} (hidx : indexOf? start g.v = some startIndex) :
    findShortestPaths g start wfun = dijkstraLoop g wfun (g.e.length + 2)
      { Kv := List.replicate g.v.length false, Pv := initPvLoop g.v [],
        Dv := (List.replicate g.v.length (⊤ : WithTop W)).set startIndex 0,
        pq := [((0 : WithTop W), start)] } := by
  unfold findShortestPaths
  rw [hidx]

/-- C2: on a well-formed graph with `startVertex` present and a non-negative
weight function, `findShortestPaths` returns normally with a predecessor map
holding exactly one entry per vertex of the graph (`vertexCount` many, keyed
by `v` in order), `map[startVertex] = startVertex`, and an entry maps a
vertex to itself precisely when it is the start or is unreachable from the
start. -/
theorem findShortestPaths_predecessor_map {W : Type} [LinearOrderedAddCommMonoid W]
    (g : Digraph VertexInfo EdgeInfo) (start : Int) (wfun : EdgeInfo → W)
    (hwf : WF g) (hstart : start ∈ g.v) (hnn : ∀ i, 0 ≤ wfun i) :
    ∃ Pv, findShortestPaths g start wfun = .ok Pv ∧
      Pv.map Prod.fst = g.v ∧
      (Pv.length : Int) = vertexCount g ∧
      mapFind Pv start = some start ∧
      (∀ x ∈ g.v, (mapFind Pv x = some x ↔ (x = start ∨ ¬ Reachable g start x))) := by
  obtain ⟨startIndex, hidx⟩ := indexOf?_mem_exists hstart
  set st0 : DState W :=
    { Kv := List.replicate g.v.length false, Pv := initPvLoop g.v [],
      Dv := (List.replicate g.v.length (⊤ : WithTop W)).set startIndex 0,
      pq := [((0 : WithTop W), start)] } with hst0
  have hinit : DInv g start st0 := DInv_init g start hwf startIndex hidx
  have hphi : dPhi g st0 < g.e.length + 2 := by
    unfold dPhi
    show ([((0 : WithTop W), start)]).length +
      unprocSum g (List.replicate g.v.length false) < g.e.length + 2
    rw [unprocSum_replicate_false g hwf]
    have h1 : ([((0 : WithTop W), start)]).length = 1 := rfl
    omega
  obtain ⟨stE, hrunE, hinvE, hpqE⟩ :=
    dijkstraLoop_spec g wfun hwf hnn start (g.e.length + 2) st0 hinit hphi
  refine ⟨stE.Pv, ?_, hinvE.hPkeys, ?_, hinvE.hPstart, ?_⟩
  · rw [findShortestPaths_run g start wfun hidx]
    exact hrunE
  · have hlen : stE.Pv.length = g.v.length := by
      have hh := congrArg List.length hinvE.hPkeys
      rw [List.length_map] at hh
      exact hh
    rw [hlen]
    unfold vertexCount
    obtain ⟨-, -, -, -, -, -, -, -, -, hvc, -⟩ := hwf
    rw [hvc]
  · intro x hx
    by_cases hxs : x = start
    · subst hxs
      exact iff_of_true hinvE.hPstart (Or.inl rfl)
    · obtain ⟨ix, hix⟩ := indexOf?_mem_exists hx
      rw [hinvE.hself x hx hxs ix hix]
      constructor
      · intro htop
        right
        intro hreach
        exact DInv_empty_reachable_finite hwf hinvE hpqE x hreach ix hix htop
      · intro hor
        rcases hor with h | hnr
        · exact absurd h hxs
        · by_contra hne
          exact hnr (hinvE.hfinreach x hx ix hix hne)

/-- Witness for C2 at the example graph `G3`, start `1`, constant weight 1. -/
theorem findShortestPaths_predecessor_map_witness :
    WF G3 ∧ (1 : Int) ∈ G3.v ∧
    (∃ Pv, findShortestPaths G3 1 (fun _ : Int => (1 : Int)) = .ok Pv ∧
      Pv.map Prod.fst = G3.v ∧
      (Pv.length : Int) = vertexCount G3 ∧
      mapFind Pv 1 = some 1 ∧
      (∀ x ∈ G3.v, (mapFind Pv x = some x ↔ (x = 1 ∨ ¬ Reachable G3 1 x)))) :=
  ⟨by decide, by decide,
    findShortestPaths_predecessor_map G3 1 (fun _ => 1) (by decide) (by decide)
      (fun i => zero_le_one)⟩

theorem relaxAll_total {W : Type} [LinearOrderedAddCommMonoid W]
    (g : Digraph VertexInfo EdgeInfo) (wfun : EdgeInfo → W) (hwf : WF g)
    (vertex : Int) (index : Nat) (r : DigraphVertex VertexInfo EdgeInfo)
    (hr : mapFind g.m vertex = some r) (hidxlt : index < g.v.length) :
    ∀ (eds : List (DigraphEdge EdgeInfo)) (st : DState W),
    (∀ ed ∈ eds, ed ∈ r.edges) →
    st.Dv.length = g.v.length →
    ∃ st', relaxAll g wfun vertex index eds st = .ok st' ∧
      st'.Kv = st.Kv ∧ st'.Dv.length = st.Dv.length ∧
      (∀ pr ∈ st'.pq, pr ∈ st.pq ∨ pr.2 ∈ g.v) ∧
      st'.pq.length ≤ st.pq.length + eds.length := by
  intro eds
  induction eds with
  | nil =>
    intro st _ _
    exact ⟨st, rfl, rfl, rfl, fun pr hpr => Or.inl hpr, by simp⟩
  | cons ed rest ih =>
    intro st heds hlen
    have hedr : ed ∈ r.edges := heds ed (List.mem_cons_self _ _)
    have htarget : ed.toVertex ∈ g.v := by
      obtain ⟨-, -, -, -, hft, -⟩ := hwf
      exact (hft (vertex, r) (mapFind_mem hr) ed hedr).2
    obtain ⟨indexW, hposW⟩ := indexOf?_mem_exists htarget
    have hWlt : indexW < st.Dv.length := by
      rw [hlen]
      exact indexOf?_some_lt hposW
    have hIlt : index < st.Dv.length := by
      rw [hlen]
      exact hidxlt
    have hdW : st.Dv[indexW]? = some st.Dv[indexW] := List.getElem?_eq_getElem hWlt
    have hdI : st.Dv[index]? = some st.Dv[index] := List.getElem?_eq_getElem hIlt
    obtain ⟨info, hinfo⟩ := edgeInfo_ok_of_edge hwf hr hedr
    have hrun1 : ∀ (res : Except CxxAbort (DState W)),
        (if st.Dv[index] + (wfun info : WithTop W) < st.Dv[indexW] then
          relaxAll g wfun vertex index rest
            { st with Dv := st.Dv.set indexW (st.Dv[index] + (wfun info : WithTop W)),
                      Pv := mapAssign st.Pv ed.toVertex vertex,
                      pq := st.pq ++ [(st.Dv[index] + (wfun info : WithTop W), ed.toVertex)] }
          else relaxAll g wfun vertex index rest st) = res →
        relaxAll g wfun vertex index (ed :: rest) st = res := by
      intro res hres
      rw [relaxAll, hposW]
      dsimp only
      rw [hdW, hdI]
      dsimp only
      rw [hinfo]
      dsimp only
      exact hres
    by_cases hcmp : st.Dv[index] + (wfun info : WithTop W) < st.Dv[indexW]
    · set st1 : DState W :=
        { st with Dv := st.Dv.set indexW (st.Dv[index] + (wfun info : WithTop W)),
                  Pv := mapAssign st.Pv ed.toVertex vertex,
                  pq := st.pq ++ [(st.Dv[index] + (wfun info : WithTop W), ed.toVertex)] }
        with hst1
      have hlen1 : st1.Dv.length = g.v.length := by
        show (st.Dv.set indexW _).length = g.v.length
        rw [List.length_set]
        exact hlen
      obtain ⟨st2, hrel, hKv2, hlen2, hmem2, hpqlen2⟩ :=
        ih st1 (fun x hx => heds x (List.mem_cons_of_mem _ hx)) hlen1
      refine ⟨st2, hrun1 _ (by rw [if_pos hcmp]; exact hrel), hKv2, ?_, ?_, ?_⟩
      · rw [hlen2]
        show (st.Dv.set indexW _).length = st.Dv.length
        rw [List.length_set]
      · intro pr hpr
        rcases hmem2 pr hpr with h | h
        · have hpr1 : pr ∈ st.pq ++ [(st.Dv[index] + (wfun info : WithTop W), ed.toVertex)] := h
          rcases List.mem_append.mp hpr1 with h1 | h1
          · exact Or.inl h1
          · rw [List.mem_singleton] at h1
            subst h1
            exact Or.inr htarget
        · exact Or.inr h
      · have hpq1len : st1.pq.length = st.pq.length + 1 := by
          show (st.pq ++ [_]).length = st.pq.length + 1
          rw [List.length_append]
          rfl
        rw [hpq1len] at hpqlen2
        simp only [List.length_cons]
        omega
    · obtain ⟨st2, hrel, hKv2, hlen2, hmem2, hpqlen2⟩ :=
        ih st (fun x hx => heds x (List.mem_cons_of_mem _ hx)) hlen
      refine ⟨st2, hrun1 _ (by rw [if_neg hcmp]; exact hrel), hKv2, hlen2, hmem2, ?_⟩
      simp only [List.length_cons]
      omega

theorem dijkstraLoop_total {W : Type} [LinearOrderedAddCommMonoid W]
    (g : Digraph VertexInfo EdgeInfo) (wfun : EdgeInfo → W) (hwf : WF g) :
    ∀ (fuel : Nat) (st : DState W),
    st.Kv.length = g.v.length → st.Dv.length = g.v.length →
    (∀ pr ∈ st.pq, pr.2 ∈ g.v) → dPhi g st < fuel →
    ∃ Pv, dijkstraLoop g wfun fuel st = .ok Pv := by
  intro fuel
  induction fuel with
  | zero =>
    intro st _ _ _ hphi
    exact absurd hphi (Nat.not_lt_zero _)
  | succ fuel ih =>
    intro st hKlen hDlen hqv hphi
    rcases hpop : pqPop st.pq with _ | ⟨top, pq1⟩
    · refine ⟨st.Pv, ?_⟩
      rw [dijkstraLoop, hpop]
    · obtain ⟨htopmem, hpq1⟩ := pqPop_some hpop
      have htopv : top.2 ∈ g.v := hqv top htopmem
      obtain ⟨index, hidxtop⟩ := indexOf?_mem_exists htopv
      have hidxlt : index < g.v.length := indexOf?_some_lt hidxtop
      have hKvlt : index < st.Kv.length := by
        rw [hKlen]
        exact hidxlt
      have hKvsome : st.Kv[index]? = some st.Kv[index] := List.getElem?_eq_getElem hKvlt
      have hpqlen : pq1.length + 1 = st.pq.length := by
        rw [hpq1, List.length_erase_of_mem htopmem]
        have := List.length_pos_of_mem htopmem
        omega
      have hsubq : ∀ pr ∈ pq1, pr.2 ∈ g.v := by
        intro pr hpr
        rw [hpq1] at hpr
        exact hqv pr (List.mem_of_mem_erase hpr)
      have hrun : ∀ (res : Except CxxAbort (List (Int × Int))),
          (if st.Kv[index] = false then
            match mapFind g.m top.2 with
            | none => .error .mapAtOutOfRange
            | some r =>
              match relaxAll g wfun top.2 index r.edges
                  { st with pq := pq1, Kv := st.Kv.set index true } with
              | .error err => .error err
              | .ok st1 => dijkstraLoop g wfun fuel st1
          else dijkstraLoop g wfun fuel { st with pq := pq1 }) = res →
          dijkstraLoop g wfun (fuel + 1) st = res := by
        intro res hres
        rw [dijkstraLoop, hpop]
        dsimp only
        rw [hidxtop]
        dsimp only
        rw [hKvsome]
        dsimp only
        exact hres
      by_cases hkv : st.Kv[index] = false
      · have hms : (mapFind g.m top.2).isSome = true := by
          obtain ⟨-, -, -, hsome, -⟩ := hwf
          exact hsome top.2 htopv
        rcases hr : mapFind g.m top.2 with _ | r
        · rw [hr] at hms
          simp at hms
        set st1 : DState W := { st with pq := pq1, Kv := st.Kv.set index true } with hst1
        obtain ⟨st2, hrel, hKv2, hlen2, hmem2, hpqlen2⟩ :=
          relaxAll_total g wfun hwf top.2 index r hr hidxlt r.edges st1
            (fun _ h => h) hDlen
        have hKv2' : st2.Kv = st.Kv.set index true := hKv2
        have hside1 : st2.Kv.length = g.v.length := by
          rw [hKv2', List.length_set, hKlen]
        have hside2 : st2.Dv.length = g.v.length := by
          rw [hlen2]
          exact hDlen
        have hside3 : ∀ pr ∈ st2.pq, pr.2 ∈ g.v := by
          intro pr hpr
          rcases hmem2 pr hpr with h | h
          · exact hsubq pr h
          · exact h
        have hside4 : dPhi g st2 < fuel := by
          have hKne : ¬ st.Kv[index]? = some true := by
            rw [hKvsome, hkv]
            simp
          have hsum : unprocSum g (st.Kv.set index true) + outdegAt g index =
              unprocSum g st.Kv :=
            unprocSum_set g st.Kv index hKlen hidxlt hKne
          have hod : outdegAt g index = r.edges.length := outdegAt_of_index hidxtop hr
          have hpq1len : st1.pq.length = pq1.length := rfl
          rw [hpq1len] at hpqlen2
          have hphi1 : dPhi g st < fuel + 1 := hphi
          unfold dPhi at hphi1 ⊢
          rw [hKv2']
          omega
        obtain ⟨Pv, hPv⟩ := ih st2 hside1 hside2 hside3 hside4
        refine ⟨Pv, ?_⟩
        apply hrun
        rw [if_pos hkv, hr]
        dsimp only
        rw [hrel]
        dsimp only
        exact hPv
      · have hkvt : st.Kv[index] = true := by
          cases h : st.Kv[index] with
          | false => exact absurd h hkv
          | true => rfl
        have hsideA : dPhi g { st with pq := pq1 } < fuel := by
          unfold dPhi at hphi ⊢
          show pq1.length + unprocSum g st.Kv < fuel
          omega
        obtain ⟨Pv, hPv⟩ := ih { st with pq := pq1 } hKlen hDlen hsubq hsideA
        refine ⟨Pv, ?_⟩
        apply hrun
        have hcond : ¬ (st.Kv[index] = false) := by
          rw [hkvt]
          simp
        rw [if_neg hcond]
        exact hPv

/-- C9: `findShortestPaths` never validates `startVertex`.  An absent start
makes the source write `Dv[indexOf(startVertex)] = Dv[-1] = 0` out of
bounds, modelled as the `undefinedBehavior` abort — which is not a
`DigraphException`, so in particular no `NoSuchVertex` error is raised.
When the start is present in a well-formed graph, every index computed
inside the call is in bounds and the call returns normally, for an
arbitrary weight function. -/
theorem findShortestPaths_start_unchecked {W : Type} [LinearOrderedAddCommMonoid W]
    (g : Digraph VertexInfo EdgeInfo) (start : Int) (wfun : EdgeInfo → W) :
    (start ∉ g.v →
      findShortestPaths g start wfun = .error .undefinedBehavior ∧
      (∀ err, findShortestPaths g start wfun = .error err →
        isDigraphException err = false)) ∧
    (WF g → start ∈ g.v → ∃ Pv, findShortestPaths g start wfun = .ok Pv) := by
  constructor
  · intro habs
    have hnone : indexOf? start g.v = none := indexOf?_eq_none_iff.mpr habs
    have hub : findShortestPaths g start wfun = .error .undefinedBehavior := by
      unfold findShortestPaths
      rw [hnone]
    refine ⟨hub, ?_⟩
    intro err herr
    rw [hub] at herr
    injection herr with herr
    rw [← herr]
    rfl
  · intro hwf hstart
    obtain ⟨startIndex, hidx⟩ := indexOf?_mem_exists hstart
    set st0 : DState W :=
      { Kv := List.replicate g.v.length false, Pv := initPvLoop g.v [],
        Dv := (List.replicate g.v.length (⊤ : WithTop W)).set startIndex 0,
        pq := [((0 : WithTop W), start)] } with hst0
    have hphi : dPhi g st0 < g.e.length + 2 := by
      unfold dPhi
      show ([((0 : WithTop W), start)]).length +
        unprocSum g (List.replicate g.v.length false) < g.e.length + 2
      rw [unprocSum_replicate_false g hwf]
      have h1 : ([((0 : WithTop W), start)]).length = 1 := rfl
      omega
    obtain ⟨Pv, hPv⟩ := dijkstraLoop_total g wfun hwf (g.e.length + 2) st0
      (List.length_replicate _ _)
      (by show ((List.replicate g.v.length (⊤ : WithTop W)).set startIndex 0).length = _
          rw [List.length_set, List.length_replicate])
      (by intro pr hpr
          rw [List.mem_singleton] at hpr
          subst hpr
          exact hstart)
      hphi
    refine ⟨Pv, ?_⟩
    rw [findShortestPaths_run g start wfun hidx]
    exact hPv

/-- Witness for C9: on `G1` (single vertex `1`) the absent start `2` yields
the undefined-behavior abort; on the well-formed `G3` the present start `1`
returns normally. -/
theorem findShortestPaths_start_unchecked_witness :
    (findShortestPaths G1 2 (fun z : Int => z) = .error .undefinedBehavior) ∧
    (∃ Pv, findShortestPaths G3 1 (fun z : Int => z) = .ok Pv) :=
  ⟨((findShortestPaths_start_unchecked G1 2 (fun z => z)).1 (by decide)).1,
   (findShortestPaths_start_unchecked G3 1 (fun z => z)).2 (by decide) (by decide)⟩

end DigraphModel
